import Mathlib

/-!
# prized-rasterizer: pixel buffer, point cloud, projection and frame loop

Shallow embedding of `src/rasterizer/display.c` and `src/rasterizer/main.c`.

* C `int` values are `Int`; the results of `int` additions and multiplications
  that can leave the 32-bit range are wrapped with `wrap_int`.
* `uint32_t` colours are `Nat`.
* A finite C `float` value is a rational number, and a `vec2_t` coordinate may
  in addition be non-finite (`none`), which is what a division by zero
  produces. The sweeps of `setup` are exact in `float`. The quotient and the
  product of `project` are read in exact arithmetic. The `float` sum in
  `render`, whose truncation selects a pixel, is rounded to binary32 (round to
  nearest, ties to even) as the `float` addition does.
* A run that stores outside an array, or a loop that is given too little fuel,
  yields `none`.
-/

namespace Rasterizer

/-! ## Machine integers and loops -/

/-- Largest value of a 32-bit C `int`. -/
def INT_MAX : Int := 2147483647

/-- Smallest value of a 32-bit C `int`. -/
def INT_MIN : Int := -2147483648

/-- Two's complement wrap of an integer result to the 32-bit `int` range. -/
def wrap_int (n : Int) : Int := (n + 2147483648) % 4294967296 - 2147483648

/-- The C loop `for (i = i0; test(i); i = next(i)) body`, run for at most `fuel`
evaluations of the test. The result is `none` when the fuel runs out before the
test fails, or when the body fails. -/
def for_loop {α σ : Type} (fuel : Nat) (test : α → Bool) (next : α → α)
    (body : α → σ → Option σ) (i : α) (s : σ) : Option σ :=
  match fuel with
  | 0 => none
  | fuel + 1 =>
    if test i then (body i s).bind (for_loop fuel test next body (next i))
    else some s

/-- The C loop `for (int i = lo; i < hi; i++) body`. The test fails after
`hi - lo` increments, so `hi - lo + 1` evaluations of the test are enough.
Since `i < hi` holds whenever `i` is incremented, `i + 1` never leaves the
`int` range when `hi` is an `int`. -/
def for_int {σ : Type} (lo hi : Int) (body : Int → σ → Option σ) (s : σ) : Option σ :=
  for_loop ((hi - lo).toNat + 1) (fun i => decide (i < hi)) (fun i => i + 1) body lo s

/-! ## display.c -/

/-- A packed 32-bit colour (`uint32_t`). -/
abbrev Color := Nat

/-- The globals of `display.c` that the drawing routines use. `writes` is a
ghost field: the indices at which `color_buffer` has been stored to, most
recent first. -/
structure Display where
  window_width : Int
  window_height : Int
  color_buffer : List Color
  writes : List Int
deriving DecidableEq

/-- The assignment `color_buffer[idx] = color`. It fails when `idx` is not an
index of the buffer. -/
def store (idx : Int) (color : Color) (d : Display) : Option Display :=
  if 0 ≤ idx ∧ idx < d.color_buffer.length then
    some { d with color_buffer := d.color_buffer.set idx.toNat color,
                  writes := idx :: d.writes }
  else none

/-- The `int` expression `(window_width * y) + x`. -/
def buffer_index (d : Display) (x y : Int) : Int :=
  wrap_int (wrap_int (d.window_width * y) + x)

/-- `draw_pixel` of display.c. -/
def draw_pixel (x y : Int) (color : Color) (d : Display) : Option Display :=
  if x ≥ 0 ∧ x < d.window_width ∧ y ≥ 0 ∧ y < d.window_height then
    store (buffer_index d x y) color d
  else some d

/-- `draw_rectangle` of display.c. -/
def draw_rectangle (x y width height : Int) (color : Color) (d : Display) : Option Display :=
  for_int x (wrap_int (x + width)) (fun x_i d =>
    for_int y (wrap_int (y + height)) (fun y_i d =>
      draw_pixel x_i y_i color d) d) d

/-- `draw_grid` of display.c. -/
def draw_grid (d : Display) : Option Display :=
  for_int 0 d.window_height (fun y d =>
    for_int 0 d.window_width (fun x d =>
      if Int.tmod x 10 = 0 ∨ Int.tmod y 10 = 0 then
        store (buffer_index d x y) 0xFFFFFFFF d
      else some d) d) d

/-- `clear_color_buffer` of display.c. -/
def clear_color_buffer (color : Color) (d : Display) : Option Display :=
  for_int 0 d.window_height (fun y d =>
    for_int 0 d.window_width (fun x d =>
      store (buffer_index d x y) color d) d) d

/-- The buffer matches the window: the dimensions are not negative, the number
of pixels fits an `int` (the index `(window_width * y) + x` is computed in
`int`), and the buffer has one element per pixel. -/
def Display.WellFormed (d : Display) : Prop :=
  0 ≤ d.window_width ∧ 0 ≤ d.window_height ∧
  d.window_width * d.window_height ≤ INT_MAX ∧
  (d.color_buffer.length : Int) = d.window_width * d.window_height

/-- The colour at column `x`, row `y`, read at index `window_width * y + x`. -/
def Display.pixel (d : Display) (x y : Int) : Option Color :=
  d.color_buffer[(d.window_width * y + x).toNat]?

/-- Index `idx` is `window_width * row + column` for a row and a column on
screen. -/
def Display.OnScreenIndex (d : Display) (idx : Int) : Prop :=
  ∃ row col : Int, 0 ≤ col ∧ col < d.window_width ∧ 0 ≤ row ∧ row < d.window_height ∧
    idx = d.window_width * row + col

/-! ## main.c -/

/-- Modelled from the spec: `vector.h`, which declares `vec3_t`, is not among
the sources. The spec's Point3D has three floating-point coordinates (x, y, z);
`main.c` uses the fields `x`, `y`, `z` and initialises a point positionally as
`{ x, y, z }`. A coordinate is a finite `float`, read as a rational. -/
structure vec3_t where
  x : ℚ
  y : ℚ
  z : ℚ
deriving DecidableEq

/-- Modelled from the spec: `vector.h`, which declares `vec2_t`, is not among
the sources. The spec's Point2D has two floating-point coordinates; `main.c`
uses the fields `x` and `y`. A coordinate is a rational, or `none` for a
non-finite `float` (an infinity or a NaN). -/
structure vec2_t where
  x : Option ℚ
  y : Option ℚ
deriving DecidableEq

/-- The macro `N_POINTS`, `9 * 9 * 9`. -/
def N_POINTS : Nat := 9 * 9 * 9

/-- The globals of the program. `frames` is a ghost field: the buffers handed
to the presenter by `render_color_buffer`, most recent first. -/
structure App where
  display : Display
  cube_points : List vec3_t
  projected_points : List vec2_t
  camera_position : vec3_t
  fov_factor : ℚ
  is_running : Bool
  frames : List (List Color)
deriving DecidableEq

/-- The globals as the static initialisers of `display.c` and `main.c` leave
them: both point arrays zeroed, no colour buffer yet. -/
def initial_app : App :=
  { display := { window_width := 800, window_height := 600, color_buffer := [], writes := [] },
    cube_points := List.replicate N_POINTS ⟨0, 0, 0⟩,
    projected_points := List.replicate N_POINTS ⟨some 0, some 0⟩,
    camera_position := ⟨0, 0, -5⟩,
    fov_factor := 640,
    is_running := false,
    frames := [] }

/-- The assignment `cube_points[idx] = p`. It fails when `idx` is not an index
of the array. -/
def store_point (idx : Int) (p : vec3_t) (pts : List vec3_t) : Option (List vec3_t) :=
  if 0 ≤ idx ∧ idx < pts.length then some (pts.set idx.toNat p) else none

/-- The loop `for (float v = -1; v <= 1; v += 0.25) body`. Every value that `v`
takes is a multiple of 0.25 of absolute value at most 1.25; these are `float`
values and their sums with 0.25 are exact, so the rational reading is exact. -/
def for_axis {σ : Type} (fuel : Nat) (body : ℚ → σ → Option σ) (s : σ) : Option σ :=
  for_loop fuel (fun v : ℚ => decide (v ≤ 1)) (fun v => v + 1 / 4) body (-1) s

/-- `setup` of main.c. `memory` is the block that `malloc` returns for the
colour buffer (the empty list for a null pointer); the texture belongs to the
presenter and is not modelled. The result carries the final value of the local
`point_count`. -/
def setup (fuel : Nat) (memory : List Color) (s : App) : Option (App × Int) :=
  let s := { s with display := { s.display with color_buffer := memory } }
  let point_count : Int := 0
  for_axis fuel (fun x st =>
    for_axis fuel (fun y st =>
      for_axis fuel (fun z st =>
        let new_point : vec3_t := ⟨x, y, z⟩
        (store_point st.2 new_point st.1.cube_points).map
          (fun pts => ({ st.1 with cube_points := pts }, st.2 + 1))) st) st)
    (s, point_count)

/-- An SDL event as far as `process_input` reads it: `event.type` and
`event.key.keysym.sym`. -/
structure SDL_Event where
  type : Nat
  sym : Int
deriving DecidableEq

/-- The SDL2 event type `SDL_QUIT`. -/
def SDL_QUIT : Nat := 0x100

/-- The SDL2 event type `SDL_KEYDOWN`. -/
def SDL_KEYDOWN : Nat := 0x300

/-- The SDL2 key code `SDLK_ESCAPE`. -/
def SDLK_ESCAPE : Int := 27

/-- `SDL_PollEvent(&event)` of SDL2: a pending event is removed from the queue
and copied into `event`; when none is pending the call stores no event, and
`event` is left as it was. -/
def SDL_PollEvent (pending : Option SDL_Event) (event : SDL_Event) : SDL_Event :=
  match pending with
  | some e => e
  | none => event

/-- `process_input` of main.c. `uninit` is the content of the local `event`
before the call of `SDL_PollEvent`: the variable is declared without an
initialiser. The value that `SDL_PollEvent` returns is not used. -/
def process_input (uninit : SDL_Event) (pending : Option SDL_Event) (s : App) : App :=
  let event := SDL_PollEvent pending uninit
  if event.type = SDL_QUIT then { s with is_running := false }
  else if event.type = SDL_KEYDOWN then
    if event.sym = SDLK_ESCAPE then { s with is_running := false } else s
  else s

/-- The `float` division `a / b` of finite values in exact arithmetic. A zero
divisor gives an infinity or a NaN. -/
def float_div (a b : ℚ) : Option ℚ := if b = 0 then none else some (a / b)

/-- The `float` product `a * b` with `a` finite: non-finite when `b` is. -/
def float_mul (a : ℚ) (b : Option ℚ) : Option ℚ := b.map (fun q => a * q)

/-- `project` of main.c; `fov_factor` is the global it reads. -/
def project (fov_factor : ℚ) (point : vec3_t) : vec2_t :=
  { x := float_mul fov_factor (float_div point.x point.z),
    y := float_mul fov_factor (float_div point.y point.z) }

/-- `update` of main.c. Reading or storing outside an array fails. -/
def update (s : App) : Option App :=
  for_int 0 N_POINTS (fun i s =>
    match s.cube_points[i.toNat]? with
    | none => none
    | some p =>
      let point : vec3_t := { p with z := p.z - s.camera_position.z }
      let projected_point := project s.fov_factor point
      if i.toNat < s.projected_points.length then
        some { s with projected_points := s.projected_points.set i.toNat projected_point }
      else none) s

/-- Truncation of a rational toward zero. -/
def trunc (q : ℚ) : Int := Int.tdiv q.num q.den

/-- Conversion of a `float` to `int`: the value is truncated toward zero. It
fails for a non-finite value and for a value whose truncation is not an
`int`. -/
def float_to_int (v : Option ℚ) : Option Int :=
  match v with
  | none => none
  | some q => if INT_MIN ≤ trunc q ∧ trunc q ≤ INT_MAX then some (trunc q) else none

/-- The integer nearest to `x`, the even one of the two when `x` lies halfway
between two integers. -/
def round_half_even (x : ℚ) : Int :=
  if x - (⌊x⌋ : ℚ) < 1 / 2 then ⌊x⌋
  else if 1 / 2 < x - (⌊x⌋ : ℚ) then ⌊x⌋ + 1
  else if ⌊x⌋ % 2 = 0 then ⌊x⌋ else ⌊x⌋ + 1

/-- Exponent of the spacing of binary32 values around `q`: 24 significant bits
below the leading bit of `q`, and `-149` in the subnormal range. -/
def float_quantum (q : ℚ) : Int := max (Int.log 2 |q|) (-126) - 23

/-- The multiple of the binary32 spacing around `q` that is nearest to `q`,
ties to even. -/
def float_nearest (q : ℚ) : ℚ :=
  (round_half_even (q / 2 ^ float_quantum q) : ℚ) * 2 ^ float_quantum q

/-- Rounding of an exact result to `float` (binary32, round to nearest, ties
to even). A result of magnitude `2 ^ 128` or more is an infinity. -/
def round_to_float (q : ℚ) : Option ℚ :=
  if |float_nearest q| < 2 ^ (128 : Int) then some (float_nearest q) else none

/-- Conversion of an `int` to `float`. -/
def int_to_float (n : Int) : Option ℚ := round_to_float (n : ℚ)

/-- The `float` sum `a + b`: the exact sum rounded to `float`; non-finite when
an operand is. -/
def float_add (a b : Option ℚ) : Option ℚ :=
  match a, b with
  | some x, some y => round_to_float (x + y)
  | _, _ => none

/-- The argument `coordinate + extent / 2` of `draw_rectangle` in `render`: an
`int` division, the conversion of the quotient to `float`, a `float` sum, and
the conversion of the sum to the `int` parameter. -/
def screen_position (coordinate : Option ℚ) (extent : Int) : Option Int :=
  float_to_int (float_add coordinate (int_to_float (Int.tdiv extent 2)))

/-- The body of the loop of `render`: one `draw_rectangle` call. -/
def render_point (projected_point : vec2_t) (d : Display) : Option Display :=
  match screen_position projected_point.x d.window_width,
        screen_position projected_point.y d.window_height with
  | some x, some y => draw_rectangle x y 4 4 0xFFFFFF00 d
  | _, _ => none

/-- The loop of `render` over the projected points. -/
def render_points (s : App) : Option App :=
  for_int 0 N_POINTS (fun i s =>
    match s.projected_points[i.toNat]? with
    | none => none
    | some projected_point =>
      (render_point projected_point s.display).map (fun d => { s with display := d })) s

/-- `render` of main.c: the loop, the hand-over of the buffer to the presenter,
and the clear. -/
def render (s : App) : Option App :=
  (render_points s).bind (fun s =>
    let s := { s with frames := s.display.color_buffer :: s.frames }
    (clear_color_buffer 0xFF000000 s.display).map (fun d => { s with display := d }))

/-- The loop `while (is_running)` of `main`, run on a finite list of what the
environment provides per iteration: the content of the uninitialised `event`
and the pending event, if any. The loop body runs only when `is_running` holds
at the loop test. -/
def main_loop (inputs : List (SDL_Event × Option SDL_Event)) (s : App) : Option App :=
  match inputs with
  | [] => some s
  | input :: rest =>
    if s.is_running then
      ((update (process_input input.1 input.2 s)).bind render).bind (main_loop rest)
    else some s

/-- The k-th value of an axis sweep, `-1 + k / 4`. -/
def axis_value (k : Nat) : ℚ := -1 + (k : ℚ) / 4

/-- The lattice point at index `n` of `cube_points` once `setup` has run: X is
the outer axis, Y the middle one, Z the inner one. -/
def lattice_point (n : Nat) : vec3_t :=
  ⟨axis_value (n / 81), axis_value (n / 9 % 9), axis_value (n % 9)⟩

/-- Loop invariant of `setup` after `n` stores, started from the globals `s`:
`point_count` is `n`, the first `n` entries of `cube_points` are the lattice
points of their indices, and nothing else has changed. -/
def SetupInv (s : App) (n : Nat) (st : App × Int) : Prop :=
  st.2 = (n : Int) ∧ st.1.cube_points.length = N_POINTS ∧
  (∀ idx : Nat, idx < n → st.1.cube_points[idx]? = some (lattice_point idx)) ∧
  st.1 = { s with cube_points := st.1.cube_points }

/-- The point that `update` stores for the lattice point `p`: the projection
of `p` moved by the camera offset. -/
def projected_of (s : App) (p : vec3_t) : vec2_t :=
  project s.fov_factor { p with z := p.z - s.camera_position.z }

/-- Pixel `(px, py)` lies in the 4 × 4 square of one of the first `n` projected
points of `s`: a point `q` whose square has its top-left pixel at the screen
position `(x, y)` that `render` computes for it, `x` from `q.x` and
`window_width`, `y` from `q.y` and `window_height`. -/
def Covered (s : App) (n : Nat) (px py : Int) : Prop :=
  ∃ (j : Nat) (q : vec2_t) (x y : Int), j < n ∧ s.projected_points[j]? = some q ∧
    screen_position q.x s.display.window_width = some x ∧
    screen_position q.y s.display.window_height = some y ∧
    x ≤ px ∧ px < x + 4 ∧ y ≤ py ∧ py < y + 4

/-- The square of the projected point `q` can be passed to `draw_rectangle`:
both screen positions are `int` values, which needs `q` finite, and adding the
side 4 does not overflow. -/
def Drawable (d : Display) (q : vec2_t) : Prop :=
  ∃ x y : Int, screen_position q.x d.window_width = some x ∧
    screen_position q.y d.window_height = some y ∧
    x + 4 ≤ INT_MAX ∧ y + 4 ≤ INT_MAX

/-- Display `d'` has the dimensions and the buffer length of `d`. -/
def Display.SameShape (d d' : Display) : Prop :=
  d'.window_width = d.window_width ∧ d'.window_height = d.window_height ∧
  d'.color_buffer.length = d.color_buffer.length

/-- Going from `d` to `d'` kept the dimensions and the buffer length, and every
store made on the way was at an on-screen index `window_width * row + column`. -/
def Display.SafeStep (d d' : Display) : Prop :=
  d.SameShape d' ∧
  ∃ new : List Int, d'.writes = new ++ d.writes ∧ ∀ idx ∈ new, d.OnScreenIndex idx

/-! ## Loops -/

theorem wrap_int_of_range {n : Int} (h1 : INT_MIN ≤ n) (h2 : n ≤ INT_MAX) : wrap_int n = n := by
  unfold wrap_int
  unfold INT_MIN at h1
  unfold INT_MAX at h2
  omega

theorem wrap_int_range (n : Int) : INT_MIN ≤ wrap_int n ∧ wrap_int n ≤ INT_MAX := by
  unfold wrap_int INT_MIN INT_MAX
  omega

theorem for_int_done {σ : Type} (lo hi : Int) (body : Int → σ → Option σ) (s : σ)
    (h : hi ≤ lo) : for_int lo hi body s = some s := by
  unfold for_int
  have : (hi - lo).toNat = 0 := by omega
  rw [this]
  simp [for_loop]
  omega

theorem for_int_step {σ : Type} (lo hi : Int) (body : Int → σ → Option σ) (s : σ)
    (h : lo < hi) : for_int lo hi body s = (body lo s).bind (for_int (lo + 1) hi body) := by
  unfold for_int
  have : (hi - lo).toNat = (hi - (lo + 1)).toNat + 1 := by omega
  rw [this]
  rw [for_loop]
  simp [h]

/-- Invariant rule for `for_int`: an invariant that holds at entry and is kept
by every iteration holds at exit, and the loop completes. -/
theorem for_int_inv {σ : Type} (P : Int → σ → Prop) (body : Int → σ → Option σ)
    (hi : Int) :
    ∀ (n : Nat) (lo : Int) (s : σ), (hi - lo).toNat = n → lo ≤ hi → P lo s →
      (∀ i s, lo ≤ i → i < hi → P i s → ∃ s', body i s = some s' ∧ P (i + 1) s') →
      ∃ s', for_int lo hi body s = some s' ∧ P hi s' := by
  intro n
  induction n with
  | zero =>
    intro lo s hn hle h0 _
    have : lo = hi := by omega
    subst this
    exact ⟨s, for_int_done _ _ _ _ (le_refl _), h0⟩
  | succ n ih =>
    intro lo s hn hle h0 hstep
    have hlt : lo < hi := by omega
    obtain ⟨s1, hb, hp⟩ := hstep lo s (le_refl _) hlt h0
    obtain ⟨s2, hl, hp2⟩ := ih (lo + 1) s1 (by omega) (by omega) hp
      (fun i s hi1 hi2 hp => hstep i s (by omega) hi2 hp)
    exact ⟨s2, by rw [for_int_step _ _ _ _ hlt, hb]; exact hl, hp2⟩

/-- Invariant rule for `for_int` with an invariant that does not mention the
loop variable; the bounds may be in any order. -/
theorem for_int_keep {σ : Type} (Q : σ → Prop) (body : Int → σ → Option σ)
    (lo hi : Int) (s : σ) (h0 : Q s)
    (hstep : ∀ i s, lo ≤ i → i < hi → Q s → ∃ s', body i s = some s' ∧ Q s') :
    ∃ s', for_int lo hi body s = some s' ∧ Q s' := by
  by_cases hle : lo ≤ hi
  · exact for_int_inv (fun _ s => Q s) body hi _ lo s rfl hle h0 hstep
  · exact ⟨s, for_int_done _ _ _ _ (by omega), h0⟩

theorem axis_value_succ (k : Nat) : axis_value k + 1 / 4 = axis_value (k + 1) := by
  unfold axis_value
  push_cast
  ring

theorem axis_value_le_one {k : Nat} (h : k < 9) : axis_value k ≤ 1 := by
  unfold axis_value
  have : (k : ℚ) ≤ 8 := by exact_mod_cast Nat.le_of_lt_succ h
  linarith

theorem axis_value_nine : ¬ axis_value 9 ≤ 1 := by
  unfold axis_value
  norm_num

theorem axis_loop_inv {σ : Type} (P : Nat → σ → Prop) (body : ℚ → σ → Option σ)
    (hstep : ∀ k s, k < 9 → P k s → ∃ s', body (axis_value k) s = some s' ∧ P (k + 1) s') :
    ∀ (n m fuel : Nat) (s : σ), m + n = 9 → n + 1 ≤ fuel → P m s →
      ∃ s', for_loop fuel (fun v : ℚ => decide (v ≤ 1)) (fun v => v + 1 / 4) body
        (axis_value m) s = some s' ∧ P 9 s' := by
  intro n
  induction n with
  | zero =>
    intro m fuel s hm hfuel h0
    obtain ⟨f, rfl⟩ : ∃ f, fuel = f + 1 := ⟨fuel - 1, by omega⟩
    have hm9 : m = 9 := by omega
    subst hm9
    refine ⟨s, ?_, h0⟩
    rw [for_loop]
    simp [axis_value_nine]
  | succ n ih =>
    intro m fuel s hm hfuel h0
    obtain ⟨f, rfl⟩ : ∃ f, fuel = f + 1 := ⟨fuel - 1, by omega⟩
    obtain ⟨s1, hb, hp⟩ := hstep m s (by omega) h0
    obtain ⟨s2, hl, hp2⟩ := ih (m + 1) f s1 (by omega) (by omega) hp
    refine ⟨s2, ?_, hp2⟩
    rw [for_loop]
    simp only [axis_value_le_one (show m < 9 by omega), decide_True, if_true, hb,
      Option.some_bind, axis_value_succ]
    exact hl

/-- Invariant rule for an axis sweep: nine iterations, at the values
`axis_value 0`, ..., `axis_value 8`, and ten evaluations of the test. -/
theorem for_axis_inv {σ : Type} (P : Nat → σ → Prop) (body : ℚ → σ → Option σ)
    (fuel : Nat) (hfuel : 10 ≤ fuel) (s : σ) (h0 : P 0 s)
    (hstep : ∀ k s, k < 9 → P k s → ∃ s', body (axis_value k) s = some s' ∧ P (k + 1) s') :
    ∃ s', for_axis fuel body s = some s' ∧ P 9 s' := by
  have h := axis_loop_inv P body hstep 9 0 fuel s rfl hfuel h0
  have e : axis_value 0 = -1 := by simp [axis_value]
  rw [e] at h
  exact h

/-! ## Single stores -/

theorem index_bounds {w h x y : Int} (hx0 : 0 ≤ x) (hxw : x < w) (hy0 : 0 ≤ y) (hyh : y < h) :
    0 ≤ w * y ∧ w * y ≤ w * y + x ∧ w * y + x < w * h := by
  have hw : 0 ≤ w := by omega
  have h1 : 0 ≤ w * y := mul_nonneg hw hy0
  have h2 : w * (y + 1) ≤ w * h := mul_le_mul_of_nonneg_left (by omega) hw
  have h3 : w * (y + 1) = w * y + w := by ring
  omega

theorem buffer_index_eq {d : Display} (hwf : d.WellFormed) {x y : Int}
    (hx0 : 0 ≤ x) (hxw : x < d.window_width) (hy0 : 0 ≤ y) (hyh : y < d.window_height) :
    buffer_index d x y = d.window_width * y + x := by
  obtain ⟨_, _, hmax, _⟩ := hwf
  obtain ⟨h1, h2, h3⟩ := index_bounds hx0 hxw hy0 hyh
  unfold buffer_index
  have hmin : INT_MIN ≤ 0 := by decide
  have e1 : wrap_int (d.window_width * y) = d.window_width * y :=
    wrap_int_of_range (by omega) (by omega)
  rw [e1]
  exact wrap_int_of_range (by omega) (by omega)

theorem index_inj {w x y x' y' : Int} (hx0 : 0 ≤ x) (hxw : x < w) (hx0' : 0 ≤ x') (hxw' : x' < w)
    (h : w * y + x = w * y' + x') : x = x' ∧ y = y' := by
  have hy : y = y' := by
    by_contra hne
    rcases lt_or_gt_of_ne hne with hlt | hlt
    · have : w * (y + 1) ≤ w * y' := mul_le_mul_of_nonneg_left (by omega) (by omega)
      have h3 : w * (y + 1) = w * y + w := by ring
      omega
    · have : w * (y' + 1) ≤ w * y := mul_le_mul_of_nonneg_left (by omega) (by omega)
      have h3 : w * (y' + 1) = w * y' + w := by ring
      omega
  subst hy
  exact ⟨by omega, rfl⟩

theorem store_ok {d : Display} {idx : Int} (color : Color) (h0 : 0 ≤ idx)
    (h1 : idx < d.color_buffer.length) :
    store idx color d = some { d with color_buffer := d.color_buffer.set idx.toNat color,
                                      writes := idx :: d.writes } := by
  unfold store
  rw [if_pos ⟨h0, h1⟩]

theorem draw_pixel_on {d : Display} (hwf : d.WellFormed) {x y : Int} (color : Color)
    (hx0 : 0 ≤ x) (hxw : x < d.window_width) (hy0 : 0 ≤ y) (hyh : y < d.window_height) :
    draw_pixel x y color d =
      some { d with color_buffer :=
                      d.color_buffer.set (d.window_width * y + x).toNat color,
                    writes := (d.window_width * y + x) :: d.writes } := by
  unfold draw_pixel
  rw [if_pos ⟨hx0, hxw, hy0, hyh⟩, buffer_index_eq hwf hx0 hxw hy0 hyh]
  obtain ⟨h1, h2, h3⟩ := index_bounds hx0 hxw hy0 hyh
  exact store_ok color (by omega) (by rw [hwf.2.2.2]; exact h3)

theorem draw_pixel_off {d : Display} {x y : Int} (color : Color)
    (h : ¬ (0 ≤ x ∧ x < d.window_width ∧ 0 ≤ y ∧ y < d.window_height)) :
    draw_pixel x y color d = some d := by
  unfold draw_pixel
  rw [if_neg h]

theorem sameShape_refl (d : Display) : d.SameShape d := ⟨rfl, rfl, rfl⟩

theorem wellFormed_of_sameShape {d s : Display} (hwf : d.WellFormed) (hs : d.SameShape s) :
    s.WellFormed := by
  obtain ⟨h1, h2, h3, h4⟩ := hwf
  obtain ⟨e1, e2, e3⟩ := hs
  unfold Display.WellFormed
  rw [e1, e2, e3]
  exact ⟨h1, h2, h3, h4⟩

/-- One store at the on-screen position `(x, y)`, as `clear_color_buffer` and
`draw_grid` make it. -/
theorem store_on {d : Display} (hwf : d.WellFormed) {x y : Int} (color : Color)
    (hx0 : 0 ≤ x) (hxw : x < d.window_width) (hy0 : 0 ≤ y) (hyh : y < d.window_height) :
    store (buffer_index d x y) color d =
      some { d with color_buffer :=
                      d.color_buffer.set (d.window_width * y + x).toNat color,
                    writes := (d.window_width * y + x) :: d.writes } := by
  rw [buffer_index_eq hwf hx0 hxw hy0 hyh]
  obtain ⟨h1, h2, h3⟩ := index_bounds hx0 hxw hy0 hyh
  exact store_ok color (by omega) (by rw [hwf.2.2.2]; exact h3)

/-! ## clear_color_buffer -/

theorem clear_row {d s : Display} (hwf : d.WellFormed) (color : Color) (y : Int)
    (hy0 : 0 ≤ y) (hyh : y < d.window_height) (hs : d.SameShape s)
    (hprev : ∀ i : Nat, (i : Int) < d.window_width * y → s.color_buffer[i]? = some color) :
    ∃ s', for_int 0 s.window_width (fun x d => store (buffer_index d x y) color d) s = some s' ∧
      d.SameShape s' ∧
      ∀ i : Nat, (i : Int) < d.window_width * (y + 1) → s'.color_buffer[i]? = some color := by
  have hw : s.window_width = d.window_width := hs.1
  rw [hw]
  obtain ⟨s', h1, h2, h3⟩ := for_int_inv
    (fun x s => d.SameShape s ∧
      ∀ i : Nat, (i : Int) < d.window_width * y + x → s.color_buffer[i]? = some color)
    (fun x d => store (buffer_index d x y) color d) d.window_width _ 0 s rfl hwf.1
    ⟨hs, by simpa using hprev⟩
    (by
      rintro x t hx0 hxw ⟨ht, hall⟩
      have htwf := wellFormed_of_sameShape hwf ht
      obtain ⟨b1, b2, b3⟩ := index_bounds hx0 hxw hy0 hyh
      refine ⟨_, store_on htwf color hx0 (by rw [ht.1]; exact hxw) hy0
        (by rw [ht.2.1]; exact hyh), ⟨ht.1, ht.2.1, by simp [ht.2.2]⟩, ?_⟩
      intro i hi
      simp only [ht.1]
      have hlen : (t.color_buffer.length : Int) = d.window_width * d.window_height := by
        rw [ht.2.2]; exact hwf.2.2.2
      by_cases hc : (d.window_width * y + x).toNat = i
      · subst hc
        have : (d.window_width * y + x).toNat < t.color_buffer.length := by omega
        simp [List.getElem?_set, this]
      · rw [List.getElem?_set_ne hc]
        exact hall i (by omega))
  refine ⟨s', h1, h2, fun i hi => h3 i ?_⟩
  have : d.window_width * (y + 1) = d.window_width * y + d.window_width := by ring
  omega

theorem clear_all (d : Display) (color : Color) (hwf : d.WellFormed) :
    ∃ d', clear_color_buffer color d = some d' ∧ d.SameShape d' ∧
      ∀ i : Nat, i < d'.color_buffer.length → d'.color_buffer[i]? = some color := by
  unfold clear_color_buffer
  obtain ⟨s', h1, h2, h3⟩ := for_int_inv
    (fun y s => d.SameShape s ∧
      ∀ i : Nat, (i : Int) < d.window_width * y → s.color_buffer[i]? = some color)
    (fun y d => for_int 0 d.window_width (fun x d => store (buffer_index d x y) color d) d)
    d.window_height _ 0 d rfl hwf.2.1
    ⟨sameShape_refl d, fun i hi => by simp at hi; omega⟩
    (by
      rintro y t hy0 hyh ⟨ht, hall⟩
      exact clear_row hwf color y hy0 hyh ht hall)
  refine ⟨s', h1, h2, fun i hi => h3 i ?_⟩
  have := hwf.2.2.2
  rw [h2.2.2] at hi
  omega

/-! ## draw_rectangle -/

theorem pixel_of_sameBuffer {d s : Display} (hw : s.window_width = d.window_width)
    (hb : s.color_buffer = d.color_buffer) (px py : Int) : s.pixel px py = d.pixel px py := by
  unfold Display.pixel
  rw [hw, hb]

/-- Effect of one `draw_pixel` on the on-screen pixels. -/
theorem draw_pixel_pixel {d : Display} (hwf : d.WellFormed) (a b : Int) (color : Color) :
    ∃ d', draw_pixel a b color d = some d' ∧ d.SameShape d' ∧
      ∀ px py : Int, 0 ≤ px → px < d.window_width → 0 ≤ py → py < d.window_height →
        d'.pixel px py = if px = a ∧ py = b then some color else d.pixel px py := by
  by_cases hon : 0 ≤ a ∧ a < d.window_width ∧ 0 ≤ b ∧ b < d.window_height
  · obtain ⟨ha0, haw, hb0, hbh⟩ := hon
    refine ⟨_, draw_pixel_on hwf color ha0 haw hb0 hbh, ⟨rfl, rfl, by simp⟩, ?_⟩
    intro px py hx0 hxw hy0 hyh
    obtain ⟨b1, b2, b3⟩ := index_bounds ha0 haw hb0 hbh
    obtain ⟨c1, c2, c3⟩ := index_bounds hx0 hxw hy0 hyh
    have hlen := hwf.2.2.2
    unfold Display.pixel
    simp only
    by_cases hc : px = a ∧ py = b
    · obtain ⟨rfl, rfl⟩ := hc
      have : (d.window_width * py + px).toNat < d.color_buffer.length := by omega
      simp [List.getElem?_set, this]
    · rw [if_neg hc]
      have hne : (d.window_width * b + a).toNat ≠ (d.window_width * py + px).toNat := by
        intro heq
        have heq2 : d.window_width * b + a = d.window_width * py + px := by omega
        obtain ⟨e1, e2⟩ := index_inj ha0 haw hx0 hxw heq2
        exact hc ⟨e1.symm, e2.symm⟩
      rw [List.getElem?_set_ne hne]
  · refine ⟨d, draw_pixel_off color hon, sameShape_refl d, ?_⟩
    intro px py hx0 hxw hy0 hyh
    have hc : ¬ (px = a ∧ py = b) := by
      rintro ⟨rfl, rfl⟩
      exact hon ⟨hx0, hxw, hy0, hyh⟩
    rw [if_neg hc]

/-- One column of `draw_rectangle`: the inner loop over `y_i`. -/
theorem rectangle_column {d s : Display} (hwf : d.WellFormed) (a y Y : Int) (color : Color)
    (R : Int → Int → Prop) (hs : d.SameShape s)
    (hprev : ∀ px py : Int, 0 ≤ px → px < d.window_width → 0 ≤ py → py < d.window_height →
      (R px py → s.pixel px py = some color) ∧ (¬ R px py → s.pixel px py = d.pixel px py)) :
    ∃ s', for_int y Y (fun y_i d => draw_pixel a y_i color d) s = some s' ∧ d.SameShape s' ∧
      ∀ px py : Int, 0 ≤ px → px < d.window_width → 0 ≤ py → py < d.window_height →
        ((R px py ∨ (px = a ∧ y ≤ py ∧ py < Y)) → s'.pixel px py = some color) ∧
        (¬ (R px py ∨ (px = a ∧ y ≤ py ∧ py < Y)) → s'.pixel px py = d.pixel px py) := by
  by_cases hle : y ≤ Y
  · refine for_int_inv
      (fun b s => d.SameShape s ∧
        ∀ px py : Int, 0 ≤ px → px < d.window_width → 0 ≤ py → py < d.window_height →
          ((R px py ∨ (px = a ∧ y ≤ py ∧ py < b)) → s.pixel px py = some color) ∧
          (¬ (R px py ∨ (px = a ∧ y ≤ py ∧ py < b)) → s.pixel px py = d.pixel px py))
      (fun y_i d => draw_pixel a y_i color d) Y _ y s rfl hle ⟨hs, ?_⟩ ?_
    · intro px py hx0 hxw hy0 hyh
      obtain ⟨p1, p2⟩ := hprev px py hx0 hxw hy0 hyh
      refine ⟨fun h => p1 ?_, fun h => p2 ?_⟩
      · rcases h with h | h
        · exact h
        · omega
      · exact fun hr => h (Or.inl hr)
    · rintro b t hb0 hbY ⟨ht, hall⟩
      obtain ⟨t', e1, e2, e3⟩ := draw_pixel_pixel (wellFormed_of_sameShape hwf ht) a b color
      refine ⟨t', e1, ⟨e2.1.trans ht.1, e2.2.1.trans ht.2.1, e2.2.2.trans ht.2.2⟩, ?_⟩
      intro px py hx0 hxw hy0 hyh
      have hpx := e3 px py hx0 (by rw [ht.1]; exact hxw) hy0 (by rw [ht.2.1]; exact hyh)
      obtain ⟨p1, p2⟩ := hall px py hx0 hxw hy0 hyh
      by_cases hc : px = a ∧ py = b
      · rw [if_pos hc] at hpx
        refine ⟨fun _ => hpx, fun h => absurd (Or.inr ⟨hc.1, ?_, ?_⟩) h⟩ <;> omega
      · rw [if_neg hc] at hpx
        rw [hpx]
        refine ⟨fun h => p1 ?_, fun h => p2 ?_⟩
        · rcases h with h | ⟨h1, h2, h3⟩
          · exact Or.inl h
          · refine Or.inr ⟨h1, h2, ?_⟩
            have : py ≠ b := fun hb => hc ⟨h1, hb⟩
            omega
        · rintro (h1 | ⟨h1, h2, h3⟩)
          · exact h (Or.inl h1)
          · exact h (Or.inr ⟨h1, h2, by omega⟩)
  · refine ⟨s, for_int_done _ _ _ _ (by omega), hs, ?_⟩
    intro px py hx0 hxw hy0 hyh
    obtain ⟨p1, p2⟩ := hprev px py hx0 hxw hy0 hyh
    refine ⟨fun h => p1 ?_, fun h => p2 ?_⟩
    · rcases h with h | h
      · exact h
      · omega
    · exact fun hr => h (Or.inl hr)

/-- Both loops of `draw_rectangle`, with the loop bounds `X` and `Y` as given. -/
theorem rectangle_loops {d : Display} (hwf : d.WellFormed) (x y X Y : Int) (color : Color) :
    ∃ d', for_int x X (fun x_i d =>
        for_int y Y (fun y_i d => draw_pixel x_i y_i color d) d) d = some d' ∧
      d.SameShape d' ∧
      ∀ px py : Int, 0 ≤ px → px < d.window_width → 0 ≤ py → py < d.window_height →
        ((x ≤ px ∧ px < X ∧ y ≤ py ∧ py < Y) → d'.pixel px py = some color) ∧
        (¬ (x ≤ px ∧ px < X ∧ y ≤ py ∧ py < Y) → d'.pixel px py = d.pixel px py) := by
  by_cases hle : x ≤ X
  · refine for_int_inv
      (fun a s => d.SameShape s ∧
        ∀ px py : Int, 0 ≤ px → px < d.window_width → 0 ≤ py → py < d.window_height →
          ((x ≤ px ∧ px < a ∧ y ≤ py ∧ py < Y) → s.pixel px py = some color) ∧
          (¬ (x ≤ px ∧ px < a ∧ y ≤ py ∧ py < Y) → s.pixel px py = d.pixel px py))
      (fun x_i d => for_int y Y (fun y_i d => draw_pixel x_i y_i color d) d) X _ x d rfl hle
      ⟨sameShape_refl d, ?_⟩ ?_
    · intro px py _ _ _ _
      exact ⟨fun h => by omega, fun _ => rfl⟩
    · rintro a t ha0 haX ⟨ht, hall⟩
      obtain ⟨t', e1, e2, e3⟩ := rectangle_column hwf a y Y color
        (fun px py => x ≤ px ∧ px < a ∧ y ≤ py ∧ py < Y) ht hall
      refine ⟨t', e1, e2, ?_⟩
      intro px py hx0 hxw hy0 hyh
      obtain ⟨p1, p2⟩ := e3 px py hx0 hxw hy0 hyh
      refine ⟨fun h => p1 ?_, fun h => p2 ?_⟩
      · by_cases hpa : px = a
        · exact Or.inr ⟨hpa, h.2.2.1, h.2.2.2⟩
        · exact Or.inl ⟨h.1, by omega, h.2.2.1, h.2.2.2⟩
      · rintro (⟨h1, h2, h3, h4⟩ | ⟨h1, h2, h3⟩)
        · exact h ⟨h1, by omega, h3, h4⟩
        · exact h ⟨by omega, by omega, h2, h3⟩
  · refine ⟨d, for_int_done _ _ _ _ (by omega), sameShape_refl d, ?_⟩
    intro px py _ _ _ _
    exact ⟨fun h => by omega, fun _ => rfl⟩

/-- Two buffers of a well-formed shape that agree at every on-screen pixel are
equal. -/
theorem buffer_ext {d d' : Display} (hwf : d.WellFormed) (hs : d.SameShape d')
    (h : ∀ px py : Int, 0 ≤ px → px < d.window_width → 0 ≤ py → py < d.window_height →
      d'.pixel px py = d.pixel px py) : d'.color_buffer = d.color_buffer := by
  apply List.ext_getElem?
  intro i
  by_cases hi : i < d.color_buffer.length
  · have hlen := hwf.2.2.2
    have hwpos : 0 < d.window_width := by
      rcases lt_or_eq_of_le hwf.1 with hpos | h0
      · exact hpos
      · have hz : d.window_width * d.window_height = 0 := by rw [← h0]; ring
        omega
    have hdiv := Int.emod_add_ediv (i : Int) d.window_width
    have hm0 := Int.emod_nonneg (i : Int) (ne_of_gt hwpos)
    have hmw := Int.emod_lt_of_pos (i : Int) hwpos
    have hd0 : 0 ≤ (i : Int) / d.window_width := Int.ediv_nonneg (by omega) hwf.1
    have hdh : (i : Int) / d.window_width < d.window_height := by
      by_contra hge
      have : d.window_width * d.window_height ≤ d.window_width * ((i : Int) / d.window_width) :=
        mul_le_mul_of_nonneg_left (by omega) hwf.1
      omega
    have := h _ _ hm0 hmw hd0 hdh
    unfold Display.pixel at this
    rw [hs.1] at this
    have hidx : (d.window_width * ((i : Int) / d.window_width) + (i : Int) % d.window_width).toNat
        = i := by omega
    rw [hidx] at this
    exact this
  · have h1 : d.color_buffer[i]? = none := List.getElem?_eq_none (by omega)
    have h2 : d'.color_buffer[i]? = none := List.getElem?_eq_none (by rw [hs.2.2]; omega)
    rw [h1, h2]

/-- Effect of `draw_rectangle` on the on-screen pixels when the loop bounds do
not overflow. -/
theorem draw_rectangle_pixels {d : Display} (hwf : d.WellFormed) (x y width height : Int)
    (color : Color) (hx : INT_MIN ≤ x + width ∧ x + width ≤ INT_MAX)
    (hy : INT_MIN ≤ y + height ∧ y + height ≤ INT_MAX) :
    ∃ d', draw_rectangle x y width height color d = some d' ∧ d.SameShape d' ∧
      ∀ px py : Int, 0 ≤ px → px < d.window_width → 0 ≤ py → py < d.window_height →
        ((x ≤ px ∧ px < x + width ∧ y ≤ py ∧ py < y + height) →
          d'.pixel px py = some color) ∧
        (¬ (x ≤ px ∧ px < x + width ∧ y ≤ py ∧ py < y + height) →
          d'.pixel px py = d.pixel px py) := by
  unfold draw_rectangle
  rw [wrap_int_of_range hx.1 hx.2, wrap_int_of_range hy.1 hy.2]
  exact rectangle_loops hwf x y (x + width) (y + height) color

/-! ## Where the stores go -/

theorem safeStep_refl (d : Display) : d.SafeStep d :=
  ⟨sameShape_refl d, [], rfl, fun _ h => absurd h (List.not_mem_nil _)⟩

theorem safe_store {d s : Display} (hwf : d.WellFormed) (hs : d.SafeStep s) {x y : Int}
    (color : Color) (hx0 : 0 ≤ x) (hxw : x < d.window_width) (hy0 : 0 ≤ y)
    (hyh : y < d.window_height) :
    ∃ s', store (buffer_index s x y) color s = some s' ∧ d.SafeStep s' := by
  obtain ⟨hshape, new, hnew, hall⟩ := hs
  have hswf := wellFormed_of_sameShape hwf hshape
  refine ⟨_, store_on hswf color hx0 (by rw [hshape.1]; exact hxw) hy0
    (by rw [hshape.2.1]; exact hyh), ⟨hshape.1, hshape.2.1, by simp [hshape.2.2]⟩,
    (s.window_width * y + x) :: new, by simp [hnew], ?_⟩
  intro idx hidx
  rcases List.mem_cons.1 hidx with h | h
  · exact ⟨y, x, hx0, hxw, hy0, hyh, by rw [h, hshape.1]⟩
  · exact hall idx h

theorem safe_draw_pixel {d s : Display} (hwf : d.WellFormed) (hs : d.SafeStep s) (x y : Int)
    (color : Color) : ∃ s', draw_pixel x y color s = some s' ∧ d.SafeStep s' := by
  by_cases hon : 0 ≤ x ∧ x < s.window_width ∧ 0 ≤ y ∧ y < s.window_height
  · obtain ⟨hx0, hxw, hy0, hyh⟩ := hon
    obtain ⟨s', h1, h2⟩ := safe_store hwf hs color hx0 (by rw [← hs.1.1]; exact hxw) hy0
      (by rw [← hs.1.2.1]; exact hyh)
    refine ⟨s', ?_, h2⟩
    unfold draw_pixel
    rw [if_pos ⟨hx0, hxw, hy0, hyh⟩]
    exact h1
  · exact ⟨s, draw_pixel_off color hon, hs⟩

theorem safe_draw_rectangle {d : Display} (hwf : d.WellFormed) (x y width height : Int)
    (color : Color) : ∃ d', draw_rectangle x y width height color d = some d' ∧ d.SafeStep d' := by
  unfold draw_rectangle
  refine for_int_keep (fun s => d.SafeStep s) _ _ _ d (safeStep_refl d) ?_
  intro a s _ _ hs
  refine for_int_keep (fun s => d.SafeStep s) _ _ _ s hs ?_
  intro b t _ _ ht
  exact safe_draw_pixel hwf ht a b color

theorem safe_draw_grid {d : Display} (hwf : d.WellFormed) :
    ∃ d', draw_grid d = some d' ∧ d.SafeStep d' := by
  unfold draw_grid
  refine for_int_keep (fun s => d.SafeStep s) _ _ _ d (safeStep_refl d) ?_
  intro y s hy0 hyh hs
  refine for_int_keep (fun s => d.SafeStep s) _ _ _ s hs ?_
  intro x t hx0 hxw ht
  rw [hs.1.1] at hxw
  by_cases hc : Int.tmod x 10 = 0 ∨ Int.tmod y 10 = 0
  · simp only [if_pos hc]
    exact safe_store hwf ht 0xFFFFFFFF hx0 hxw hy0 hyh
  · simp only [if_neg hc]
    exact ⟨t, rfl, ht⟩

theorem safe_clear {d : Display} (hwf : d.WellFormed) (color : Color) :
    ∃ d', clear_color_buffer color d = some d' ∧ d.SafeStep d' := by
  unfold clear_color_buffer
  refine for_int_keep (fun s => d.SafeStep s) _ _ _ d (safeStep_refl d) ?_
  intro y s hy0 hyh hs
  refine for_int_keep (fun s => d.SafeStep s) _ _ _ s hs ?_
  intro x t hx0 hxw ht
  rw [hs.1.1] at hxw
  exact safe_store hwf ht color hx0 hxw hy0 hyh

/-! ## setup -/

theorem lattice_point_index {i j k : Nat} (hj : j < 9) (hk : k < 9) :
    lattice_point (81 * i + 9 * j + k) = ⟨axis_value i, axis_value j, axis_value k⟩ := by
  unfold lattice_point
  have h1 : (81 * i + 9 * j + k) / 81 = i := by omega
  have h2 : (81 * i + 9 * j + k) / 9 % 9 = j := by omega
  have h3 : (81 * i + 9 * j + k) % 9 = k := by omega
  rw [h1, h2, h3]

theorem setup_store {s : App} {st : App × Int} {i j k : Nat} (hi : i < 9) (hj : j < 9)
    (hk : k < 9) (h : SetupInv s (81 * i + 9 * j + k) st) :
    ∃ st', (store_point st.2 ⟨axis_value i, axis_value j, axis_value k⟩ st.1.cube_points).map
        (fun pts => (({ st.1 with cube_points := pts } : App), st.2 + 1)) = some st' ∧
      SetupInv s (81 * i + 9 * j + (k + 1)) st' := by
  obtain ⟨hc, hlen, hall, hframe⟩ := h
  have hN : N_POINTS = 729 := rfl
  have hlt : 81 * i + 9 * j + k < st.1.cube_points.length := by omega
  have hstore : store_point st.2 ⟨axis_value i, axis_value j, axis_value k⟩ st.1.cube_points
      = some (st.1.cube_points.set (81 * i + 9 * j + k)
          ⟨axis_value i, axis_value j, axis_value k⟩) := by
    unfold store_point
    rw [hc, if_pos ⟨by omega, by omega⟩]
    congr 2
  rw [hstore]
  refine ⟨_, rfl, ?_, ?_, ?_, ?_⟩
  · simp only [hc]
    push_cast
    ring
  · simp [hlen]
  · intro idx hidx
    simp only
    by_cases hc2 : 81 * i + 9 * j + k = idx
    · subst hc2
      simp [List.getElem?_set, hlt, lattice_point_index hj hk]
    · rw [List.getElem?_set_ne hc2]
      exact hall idx (by omega)
  · simp only
    rw [hframe]

theorem setup_spec (fuel : Nat) (hfuel : 10 ≤ fuel) (memory : List Color) (s : App)
    (hlen : s.cube_points.length = N_POINTS) :
    ∃ st, setup fuel memory s = some st ∧
      SetupInv { s with display := { s.display with color_buffer := memory } } 729 st := by
  unfold setup
  simp only
  generalize hs1 : ({ s with display := { s.display with color_buffer := memory } } : App) = s1
  have hlen1 : s1.cube_points.length = N_POINTS := by rw [← hs1]; exact hlen
  refine for_axis_inv (fun i st => SetupInv s1 (81 * i) st) _ fuel hfuel _
    ⟨rfl, hlen1, fun idx h => by omega, rfl⟩ ?_
  intro i st hi hinv
  beta_reduce
  have e : 81 * (i + 1) = 81 * i + 9 * 9 := by ring
  rw [e]
  refine for_axis_inv (fun j st => SetupInv s1 (81 * i + 9 * j) st) _ fuel hfuel st hinv ?_
  intro j st hj hinv
  beta_reduce
  have e : 81 * i + 9 * (j + 1) = 81 * i + 9 * j + 9 := by ring
  rw [e]
  refine for_axis_inv (fun k st => SetupInv s1 (81 * i + 9 * j + k) st) _ fuel hfuel st hinv ?_
  intro k st hk hinv
  exact setup_store hi hj hk hinv

/-! ## update -/

theorem update_eq (s : App) (h1 : s.cube_points.length = N_POINTS)
    (h2 : s.projected_points.length = N_POINTS) :
    update s = some { s with projected_points := s.cube_points.map (projected_of s) } := by
  have key : ∃ t, update s = some t ∧ t = { s with projected_points := t.projected_points } ∧
      t.projected_points.length = N_POINTS ∧
      ∀ idx : Nat, (idx : Int) < (N_POINTS : Int) →
        t.projected_points[idx]? = (s.cube_points[idx]?).map (projected_of s) := by
    unfold update
    refine for_int_inv
      (fun i t => t = { s with projected_points := t.projected_points } ∧
        t.projected_points.length = N_POINTS ∧
        ∀ idx : Nat, (idx : Int) < i →
          t.projected_points[idx]? = (s.cube_points[idx]?).map (projected_of s))
      _ (N_POINTS : Int) _ 0 s rfl (by decide) ⟨rfl, h2, fun idx h => by omega⟩ ?_
    rintro i t hi0 hiN ⟨ht, hlen, hall⟩
    have hcube : t.cube_points = s.cube_points := by rw [ht]
    have hcam : t.camera_position = s.camera_position := by rw [ht]
    have hfov : t.fov_factor = s.fov_factor := by rw [ht]
    have hlt : i.toNat < s.cube_points.length := by omega
    simp only [hcube, List.getElem?_eq_getElem hlt, hcam, hfov]
    rw [if_pos (by omega)]
    refine ⟨_, rfl, ?_, by simp [hlen], ?_⟩
    · simp only
      rw [ht]
    · intro idx hidx
      simp only
      by_cases hc : i.toNat = idx
      · subst hc
        have : i.toNat < t.projected_points.length := by omega
        simp [List.getElem?_set, this, List.getElem?_eq_getElem hlt, projected_of]
      · rw [List.getElem?_set_ne hc]
        exact hall idx (by omega)
  obtain ⟨t, e1, e2, e3, e4⟩ := key
  rw [e1, e2]
  congr 2
  apply List.ext_getElem?
  intro idx
  by_cases hidx : idx < N_POINTS
  · rw [e4 idx (by exact_mod_cast hidx), List.getElem?_map]
  · have a1 : t.projected_points[idx]? = none := List.getElem?_eq_none (by omega)
    have a2 : (s.cube_points.map (projected_of s))[idx]? = none :=
      List.getElem?_eq_none (by simp; omega)
    rw [a1, a2]

theorem project_of_nonzero (fov : ℚ) (p : vec3_t) (h : p.z ≠ 0) :
    project fov p = ⟨some (fov * (p.x / p.z)), some (fov * (p.y / p.z))⟩ := by
  simp [project, float_div, float_mul, h]

theorem project_of_zero (fov : ℚ) (p : vec3_t) (h : p.z = 0) :
    project fov p = ⟨none, none⟩ := by
  simp [project, float_div, float_mul, h]

theorem axis_value_bounds {k : Nat} (h : k < 9) : -1 ≤ axis_value k ∧ axis_value k ≤ 1 := by
  refine ⟨?_, axis_value_le_one h⟩
  unfold axis_value
  have : (0 : ℚ) ≤ (k : ℚ) := Nat.cast_nonneg k
  linarith

theorem axis_value_mem {k : Nat} (h : k < 9) :
    axis_value k ∈ ([-1, -3 / 4, -1 / 2, -1 / 4, 0, 1 / 4, 1 / 2, 3 / 4, 1] : List ℚ) := by
  unfold axis_value
  interval_cases k <;> norm_num

theorem scaled_quotient_bound {x d : ℚ} (hx : -1 ≤ x ∧ x ≤ 1) (hd : 4 ≤ d) :
    |640 * (x / d)| ≤ 160 := by
  have hpos : (0 : ℚ) < d := by linarith
  have h1 : x / d ≤ 1 / 4 := by
    rw [div_le_iff₀ hpos]
    linarith
  have h2 : -(1 / 4) ≤ x / d := by
    rw [le_div_iff₀ hpos]
    linarith
  rw [abs_le]
  constructor <;> linarith

/-- The loop of `render` fails at its first iteration when the first projected
point is non-finite. -/
theorem render_points_nonfinite (s : App) (h : s.projected_points[0]? = some ⟨none, none⟩) :
    render_points s = none := by
  unfold render_points
  rw [for_int_step _ _ _ _ (by decide)]
  simp [h, render_point, screen_position, float_add, float_to_int]

/-! ## render -/

theorem trunc_of_nonneg {q : ℚ} (h : 0 ≤ q) : trunc q = ⌊q⌋ := by
  unfold trunc
  rw [Int.tdiv_eq_ediv (Rat.num_nonneg.2 h) (Int.natCast_nonneg _), Rat.floor_def]

theorem trunc_eq_of_bounds {q : ℚ} {z : Int} (h1 : (z : ℚ) ≤ q) (h2 : q < z + 1)
    (h0 : 0 ≤ q) : trunc q = z := by
  rw [trunc_of_nonneg h0, Int.floor_eq_iff]
  exact ⟨h1, h2⟩

theorem trunc_neg (q : ℚ) : trunc (-q) = -trunc q := by
  unfold trunc
  rw [Rat.neg_num, Rat.neg_den, Int.neg_tdiv]

theorem trunc_of_nonpos {q : ℚ} (h : q ≤ 0) : trunc q = ⌈q⌉ := by
  have h1 : trunc (-q) = ⌊-q⌋ := trunc_of_nonneg (by linarith)
  rw [trunc_neg, Int.floor_neg] at h1
  omega

/-- Truncation stays between integer bounds that enclose zero. -/
theorem trunc_bounds {q : ℚ} {a b : Int} (ha : a ≤ 0) (hb : 0 ≤ b) (h1 : (a : ℚ) ≤ q)
    (h2 : q ≤ (b : ℚ)) : a ≤ trunc q ∧ trunc q ≤ b := by
  rcases le_total 0 q with h0 | h0
  · rw [trunc_of_nonneg h0]
    have hf : 0 ≤ ⌊q⌋ := Int.floor_nonneg.2 h0
    have hfb : ⌊q⌋ ≤ b := by
      have := Int.floor_le q
      exact_mod_cast this.trans h2
    omega
  · rw [trunc_of_nonpos h0]
    have hc : ⌈q⌉ ≤ 0 := Int.ceil_le.2 (by exact_mod_cast h0)
    have hca : a ≤ ⌈q⌉ := by
      have := Int.le_ceil q
      exact_mod_cast h1.trans this
    omega

theorem trunc_intCast (z : Int) : trunc (z : ℚ) = z := by
  unfold trunc
  simp

theorem half_extent_800 : Int.tdiv 800 2 = 400 := by decide

theorem half_extent_600 : Int.tdiv 600 2 = 300 := by decide

/-! ### Rounding to `float` -/

theorem round_half_even_eq {x : ℚ} {n : Int} (h1 : (n : ℚ) - 1 / 2 < x) (h2 : x < n + 1 / 2) :
    round_half_even x = n := by
  unfold round_half_even
  rcases le_or_lt (n : ℚ) x with h | h
  · have hf : ⌊x⌋ = n := Int.floor_eq_iff.2 ⟨h, by linarith⟩
    rw [hf, if_pos (by linarith)]
  · have hf : ⌊x⌋ = n - 1 := Int.floor_eq_iff.2 ⟨by push_cast; linarith, by push_cast; linarith⟩
    rw [hf]
    have hr : ¬ (x - ((n - 1 : Int) : ℚ) < 1 / 2) := by push_cast; linarith
    rw [if_neg hr, if_pos (by push_cast; linarith)]
    omega

/-- A value halfway between an odd integer and its successor rounds up. -/
theorem round_half_even_tie_odd {x : ℚ} {n : Int} (h : x = n + 1 / 2) (hodd : n % 2 = 1) :
    round_half_even x = n + 1 := by
  unfold round_half_even
  have hf : ⌊x⌋ = n := Int.floor_eq_iff.2 ⟨by linarith, by linarith⟩
  rw [hf]
  have e : x - (n : ℚ) = 1 / 2 := by linarith
  rw [e, if_neg (lt_irrefl _), if_neg (lt_irrefl _), if_neg (by omega)]

theorem round_half_even_error (x : ℚ) : |(round_half_even x : ℚ) - x| ≤ 1 / 2 := by
  have h1 := Int.floor_le x
  have h2 := Int.lt_floor_add_one x
  unfold round_half_even
  split_ifs with a b c
  · rw [abs_le]; constructor <;> linarith
  · rw [abs_le]; push_cast; constructor <;> linarith
  · rw [abs_le]; constructor <;> linarith
  · rw [abs_le]; push_cast; constructor <;> linarith

theorem round_half_even_intCast (z : Int) : round_half_even (z : ℚ) = z :=
  round_half_even_eq (by linarith) (by linarith)

theorem float_quantum_eq {q : ℚ} {e : Int} (h1 : (2 : ℚ) ^ e ≤ |q|) (h2 : |q| < 2 ^ (e + 1))
    (hmin : -126 ≤ e) : float_quantum q = e - 23 := by
  have hpos : 0 < |q| := lt_of_lt_of_le (zpow_pos (by norm_num) e) h1
  have hb : (1 : ℕ) < 2 := by norm_num
  have a1 : e ≤ Int.log 2 |q| := (Int.zpow_le_iff_le_log hb hpos).1 (by exact_mod_cast h1)
  have a2 : Int.log 2 |q| < e + 1 := (Int.lt_zpow_iff_log_lt hb hpos).1 (by exact_mod_cast h2)
  unfold float_quantum
  omega

theorem float_nearest_zero : float_nearest 0 = 0 := by
  unfold float_nearest
  have h : round_half_even (0 / 2 ^ float_quantum 0) = 0 :=
    round_half_even_eq (by norm_num) (by norm_num)
  rw [h]
  norm_num

theorem round_to_float_zero : round_to_float 0 = some 0 := by
  unfold round_to_float
  rw [float_nearest_zero]
  norm_num

/-- Evaluation of `round_to_float` at a positive value with leading bit
`2 ^ e`, given the rounded multiple `n` of the spacing `2 ^ (e - 23)`. -/
theorem round_to_float_pos {q : ℚ} (e n : Int) (h1 : (2 : ℚ) ^ e ≤ q) (h2 : q < 2 ^ (e + 1))
    (hmin : -126 ≤ e) (hn : round_half_even (q / 2 ^ (e - 23)) = n) (hn0 : 0 ≤ n)
    (hmax : (n : ℚ) * 2 ^ (e - 23) < 2 ^ (128 : Int)) :
    round_to_float q = some ((n : ℚ) * 2 ^ (e - 23)) := by
  have hpos : 0 < q := lt_of_lt_of_le (zpow_pos (by norm_num) e) h1
  have hnn : (0 : ℚ) ≤ (n : ℚ) * 2 ^ (e - 23) :=
    mul_nonneg (by exact_mod_cast hn0) (le_of_lt (zpow_pos (by norm_num) _))
  have hfq : float_quantum q = e - 23 :=
    float_quantum_eq (by rw [abs_of_pos hpos]; exact h1) (by rw [abs_of_pos hpos]; exact h2) hmin
  unfold round_to_float float_nearest
  rw [hfq, hn, if_pos (by rw [abs_of_nonneg hnn]; exact hmax)]

/-- Rounding error of `float_nearest`: relative error `2 ^ -24`, or half the
subnormal spacing. -/
theorem float_nearest_error (q : ℚ) :
    |float_nearest q - q| ≤ |q| * 2 ^ (-24 : Int) + 2 ^ (-150 : Int) := by
  have h150 : (0 : ℚ) < 2 ^ (-150 : Int) := zpow_pos (by norm_num) _
  have h24 : (0 : ℚ) < 2 ^ (-24 : Int) := zpow_pos (by norm_num) _
  rcases eq_or_ne q 0 with h0 | h0
  · subst h0
    rw [float_nearest_zero]
    simp only [sub_self, abs_zero, zero_mul, zero_add]
    exact le_of_lt h150
  have hp : (0 : ℚ) < 2 ^ float_quantum q := zpow_pos (by norm_num) _
  have herr := round_half_even_error (q / 2 ^ float_quantum q)
  have hkey : |float_nearest q - q| ≤ 2 ^ float_quantum q / 2 := by
    unfold float_nearest
    have e1 : (round_half_even (q / 2 ^ float_quantum q) : ℚ) * 2 ^ float_quantum q - q
        = ((round_half_even (q / 2 ^ float_quantum q) : ℚ) - q / 2 ^ float_quantum q)
          * 2 ^ float_quantum q := by
      field_simp
    rw [e1, abs_mul, abs_of_pos hp]
    calc |(round_half_even (q / 2 ^ float_quantum q) : ℚ) - q / 2 ^ float_quantum q|
          * 2 ^ float_quantum q ≤ 1 / 2 * 2 ^ float_quantum q :=
          mul_le_mul_of_nonneg_right herr (le_of_lt hp)
      _ = 2 ^ float_quantum q / 2 := by ring
  refine hkey.trans ?_
  rcases le_or_lt (-126) (Int.log 2 |q|) with hc | hc
  · have hfq : float_quantum q = Int.log 2 |q| - 23 := by unfold float_quantum; omega
    have hpos : 0 < |q| := abs_pos.2 h0
    have hle : ((2 : ℕ) : ℚ) ^ Int.log 2 |q| ≤ |q| := Int.zpow_log_le_self (by norm_num) hpos
    have e2 : (2 : ℚ) ^ float_quantum q / 2 = 2 ^ Int.log 2 |q| * 2 ^ (-24 : Int) := by
      rw [hfq, ← zpow_add₀ (by norm_num : (2 : ℚ) ≠ 0)]
      rw [div_eq_iff (by norm_num : (2 : ℚ) ≠ 0)]
      have : (2 : ℚ) ^ (Int.log 2 |q| + -24) * 2 = 2 ^ (Int.log 2 |q| + -24 + 1) := by
        rw [zpow_add_one₀ (by norm_num : (2 : ℚ) ≠ 0)]
      rw [this]
      congr 1
      omega
    rw [e2]
    have : (2 : ℚ) ^ Int.log 2 |q| * 2 ^ (-24 : Int) ≤ |q| * 2 ^ (-24 : Int) :=
      mul_le_mul_of_nonneg_right (by exact_mod_cast hle) (le_of_lt h24)
    linarith
  · have hfq : float_quantum q = -149 := by unfold float_quantum; omega
    rw [hfq]
    have : (2 : ℚ) ^ (-149 : Int) / 2 = 2 ^ (-150 : Int) := by norm_num
    rw [this]
    have : 0 ≤ |q| * 2 ^ (-24 : Int) := mul_nonneg (abs_nonneg _) (le_of_lt h24)
    linarith

/-- Values of magnitude at most `2 ^ 31` round to a finite `float` at distance
at most 129. -/
theorem round_to_float_near {q : ℚ} (hq : |q| ≤ 2147483648) :
    ∃ r, round_to_float q = some r ∧ |r - q| ≤ 129 := by
  have herr := float_nearest_error q
  have h24 : (2 : ℚ) ^ (-24 : Int) = 1 / 16777216 := by norm_num
  have h150 : (2 : ℚ) ^ (-150 : Int) ≤ 1 := by
    rw [zpow_neg]
    exact inv_le_one_of_one_le₀ (one_le_zpow₀ (by norm_num) (by norm_num))
  have hb : |float_nearest q - q| ≤ 129 := by
    rw [h24] at herr
    linarith
  refine ⟨float_nearest q, ?_, hb⟩
  unfold round_to_float
  rw [if_pos]
  have h1 : |float_nearest q| ≤ |float_nearest q - q| + |q| := by
    have := abs_add (float_nearest q - q) q
    simpa using this
  have h2 : (2147483648 : ℚ) + 129 < 2 ^ (128 : Int) := by norm_num
  linarith

/-- Integers of magnitude at most `2 ^ 24` are `float` values. -/
theorem round_to_float_int (n : Int) (h : |n| ≤ 16777216) :
    round_to_float (n : ℚ) = some (n : ℚ) := by
  rcases eq_or_ne n 0 with h0 | h0
  · subst h0
    simpa using round_to_float_zero
  have hq0 : (n : ℚ) ≠ 0 := by exact_mod_cast h0
  have hpos : 0 < |(n : ℚ)| := abs_pos.2 hq0
  have hb : (1 : ℕ) < 2 := by norm_num
  have h1 : (1 : ℚ) ≤ |(n : ℚ)| := by
    have : (1 : Int) ≤ |n| := Int.one_le_abs h0
    exact_mod_cast this
  have hub : |(n : ℚ)| ≤ 16777216 := by exact_mod_cast h
  have a1 : (0 : Int) ≤ Int.log 2 |(n : ℚ)| :=
    (Int.zpow_le_iff_le_log hb hpos).1 (by simpa using h1)
  have a2 : Int.log 2 |(n : ℚ)| < 25 :=
    (Int.lt_zpow_iff_log_lt hb hpos).1 (by norm_num; linarith)
  have hfq : float_quantum (n : ℚ) = Int.log 2 |(n : ℚ)| - 23 := by
    unfold float_quantum; omega
  have hres : float_nearest (n : ℚ) = n := by
    unfold float_nearest
    rcases lt_or_eq_of_le (show Int.log 2 |(n : ℚ)| ≤ 24 by omega) with hlt | heq
    · obtain ⟨k, hk⟩ : ∃ k : Nat, float_quantum (n : ℚ) = -(k : Int) :=
        ⟨(23 - Int.log 2 |(n : ℚ)|).toNat, by omega⟩
      rw [hk, zpow_neg, zpow_natCast]
      have e1 : (n : ℚ) / (2 ^ k)⁻¹ = ((n * 2 ^ k : Int) : ℚ) := by
        push_cast
        field_simp
      rw [e1, round_half_even_intCast]
      push_cast
      field_simp
    · have hle : ((2 : ℕ) : ℚ) ^ Int.log 2 |(n : ℚ)| ≤ |(n : ℚ)| :=
        Int.zpow_log_le_self hb hpos
      rw [heq] at hle
      have habs : |(n : ℚ)| = 16777216 := le_antisymm hub (by norm_num at hle; linarith)
      have hfq2 : float_quantum (n : ℚ) = 1 := by omega
      rw [hfq2]
      rcases abs_eq (by norm_num : (0 : ℚ) ≤ 16777216) |>.1 habs with hn | hn
      · rw [hn]
        have : round_half_even ((16777216 : ℚ) / 2 ^ (1 : Int)) = 8388608 :=
          round_half_even_eq (by norm_num) (by norm_num)
        rw [this]
        norm_num
      · rw [hn]
        have : round_half_even ((-16777216 : ℚ) / 2 ^ (1 : Int)) = -8388608 :=
          round_half_even_eq (by norm_num) (by norm_num)
        rw [this]
        norm_num
  unfold round_to_float
  rw [hres, if_pos (lt_of_le_of_lt hub (by norm_num))]

/-! ### The screen position -/

/-- The screen position of a finite coordinate: the truncation of the `float`
sum of the coordinate and the `float` value of `extent / 2`. -/
theorem screen_position_some_iff (q : ℚ) (extent t : Int) :
    screen_position (some q) extent = some t ↔
      ∃ half sum : ℚ, round_to_float ((Int.tdiv extent 2 : Int) : ℚ) = some half ∧
        round_to_float (q + half) = some sum ∧
        INT_MIN ≤ trunc sum ∧ trunc sum ≤ INT_MAX ∧ t = trunc sum := by
  unfold screen_position int_to_float float_add float_to_int
  constructor
  · intro h
    cases h1 : round_to_float ((Int.tdiv extent 2 : Int) : ℚ) with
    | none => rw [h1] at h; simp at h
    | some half =>
      rw [h1] at h
      simp only at h
      cases h2 : round_to_float (q + half) with
      | none => rw [h2] at h; simp at h
      | some sum =>
        rw [h2] at h
        simp only at h
        split_ifs at h with hr
        exact ⟨half, sum, rfl, h2, hr.1, hr.2, (Option.some.inj h).symm⟩
  · rintro ⟨half, sum, h1, h2, h3, h4, rfl⟩
    rw [h1]
    simp only
    rw [h2]
    simp only
    rw [if_pos ⟨h3, h4⟩]

theorem screen_position_none (extent : Int) : screen_position none extent = none := by
  unfold screen_position float_add float_to_int
  rfl

theorem screen_position_range {c : Option ℚ} {extent t : Int}
    (h : screen_position c extent = some t) : INT_MIN ≤ t ∧ t ≤ INT_MAX := by
  cases c with
  | none => rw [screen_position_none] at h; simp at h
  | some q =>
    obtain ⟨_, _, _, _, h3, h4, rfl⟩ := (screen_position_some_iff q extent t).1 h
    exact ⟨h3, h4⟩

/-- Evaluation of a screen position from the values of its steps. -/
theorem screen_position_eval {q half sum : ℚ} {extent n t : Int}
    (hn : Int.tdiv extent 2 = n) (h1 : round_to_float (n : ℚ) = some half)
    (h2 : round_to_float (q + half) = some sum) (h3 : trunc sum = t)
    (hr : INT_MIN ≤ t ∧ t ≤ INT_MAX) : screen_position (some q) extent = some t :=
  (screen_position_some_iff q extent t).2
    ⟨half, sum, by rw [hn]; exact h1, h2, by rw [h3]; exact hr.1, by rw [h3]; exact hr.2,
      h3.symm⟩

theorem screen_position_center : screen_position (some 0) 800 = some 400 :=
  screen_position_eval half_extent_800 (round_to_float_int 400 (by decide))
    (by rw [zero_add]; exact round_to_float_int 400 (by decide)) (trunc_intCast 400)
    (by decide)

theorem screen_position_middle : screen_position (some 0) 600 = some 300 :=
  screen_position_eval half_extent_600 (round_to_float_int 300 (by decide))
    (by rw [zero_add]; exact round_to_float_int 300 (by decide)) (trunc_intCast 300)
    (by decide)

/-- The exact value `640 * (1 / 6)` at width 800: the `float` sum is
`16602453 * 2 ^ -15`, about 506.66666. -/
theorem screen_position_scene : screen_position (some (640 * (1 / 6))) 800 = some 506 :=
  screen_position_eval half_extent_800 (round_to_float_int 400 (by decide))
    (round_to_float_pos 8 16602453 (by norm_num) (by norm_num) (by norm_num)
      (round_half_even_eq (by norm_num) (by norm_num)) (by norm_num) (by norm_num))
    (trunc_eq_of_bounds (by norm_num) (by norm_num) (by norm_num)) (by decide)

/-- The `float` value `0x1.aaaaacp+6` that the code stores for the point
`(1, 0, 1)`, at width 800: the exact sum is halfway between two `float` values
and rounds to `16602454 * 2 ^ -15`, about 506.66669. -/
theorem screen_position_stored :
    screen_position (some (13981014 / 131072)) 800 = some 506 :=
  screen_position_eval half_extent_800 (round_to_float_int 400 (by decide))
    (round_to_float_pos 8 (16602453 + 1) (by norm_num) (by norm_num) (by norm_num)
      (round_half_even_tie_odd (by norm_num) (by decide)) (by norm_num) (by norm_num))
    (trunc_eq_of_bounds (by norm_num) (by norm_num) (by norm_num)) (by decide)

/-- A coordinate just below zero at width 800: the exact sum `400 - 2 ^ -17`
rounds to the `float` 400, so the square starts at column 400. -/
theorem screen_position_below_zero :
    screen_position (some (-1 / 131072)) 800 = some 400 :=
  screen_position_eval half_extent_800 (round_to_float_int 400 (by decide))
    (round_to_float_pos 8 13107200 (by norm_num) (by norm_num) (by norm_num)
      (round_half_even_eq (by norm_num) (by norm_num)) (by norm_num) (by norm_num))
    (trunc_eq_of_bounds (by norm_num) (by norm_num) (by norm_num)) (by decide)

/-- A coordinate just below zero at width 4: the exact sum `2 - 2 ^ -30` rounds
to the `float` 2, so the square starts at column 2. -/
theorem screen_position_small :
    screen_position (some (-1 / 1073741824)) 4 = some 2 :=
  screen_position_eval (show Int.tdiv 4 2 = 2 by decide) (round_to_float_int 2 (by decide))
    (round_to_float_pos 0 16777216 (by norm_num) (by norm_num) (by norm_num)
      (round_half_even_eq (by norm_num) (by norm_num)) (by norm_num) (by norm_num))
    (trunc_eq_of_bounds (by norm_num) (by norm_num) (by norm_num)) (by decide)

/-! ### The loop of render -/

theorem render_point_eq (d : Display) (q : vec2_t) {x y : Int}
    (hx : screen_position q.x d.window_width = some x)
    (hy : screen_position q.y d.window_height = some y) :
    render_point q d = draw_rectangle x y 4 4 0xFFFFFF00 d := by
  unfold render_point
  rw [hx, hy]

theorem render_points_spec (s : App) (hwf : s.display.WellFormed)
    (hfin : ∀ j : Nat, j < 729 → ∃ q : vec2_t,
      s.projected_points[j]? = some q ∧ Drawable s.display q) :
    ∃ s', render_points s = some s' ∧ s' = { s with display := s'.display } ∧
      s.display.SameShape s'.display ∧
      ∀ px py : Int, 0 ≤ px → px < s.display.window_width → 0 ≤ py →
        py < s.display.window_height →
        (Covered s 729 px py → s'.display.pixel px py = some 0xFFFFFF00) ∧
        (¬ Covered s 729 px py → s'.display.pixel px py = s.display.pixel px py) := by
  unfold render_points
  refine for_int_inv
    (fun i t => t = { s with display := t.display } ∧ s.display.SameShape t.display ∧
      ∀ px py : Int, 0 ≤ px → px < s.display.window_width → 0 ≤ py →
        py < s.display.window_height →
        (Covered s i.toNat px py → t.display.pixel px py = some 0xFFFFFF00) ∧
        (¬ Covered s i.toNat px py → t.display.pixel px py = s.display.pixel px py))
    _ (N_POINTS : Int) _ 0 s rfl (by decide) ⟨rfl, sameShape_refl _, ?_⟩ ?_
  · intro px py _ _ _ _
    refine ⟨?_, fun _ => rfl⟩
    rintro ⟨j, _, _, _, hj, _⟩
    simp at hj
  · rintro i t hi0 hiN ⟨ht, hshape, hall⟩
    have hN : (N_POINTS : Int) = 729 := rfl
    obtain ⟨q, hq, x, y, hx, hy, hx4, hy4⟩ := hfin i.toNat (by omega)
    have hpp : t.projected_points = s.projected_points := by rw [ht]
    have hxr := screen_position_range hx
    have hyr := screen_position_range hy
    have hx' : screen_position q.x t.display.window_width = some x := by
      rw [hshape.1]; exact hx
    have hy' : screen_position q.y t.display.window_height = some y := by
      rw [hshape.2.1]; exact hy
    simp only [hpp, hq, render_point_eq t.display q hx' hy']
    obtain ⟨d', e1, e2, e3⟩ := draw_rectangle_pixels (wellFormed_of_sameShape hwf hshape)
      x y 4 4 0xFFFFFF00 ⟨by have := hxr.1; omega, hx4⟩ ⟨by have := hyr.1; omega, hy4⟩
    rw [e1]
    refine ⟨_, rfl, ?_, ⟨e2.1.trans hshape.1, e2.2.1.trans hshape.2.1,
      e2.2.2.trans hshape.2.2⟩, ?_⟩
    · simp only
      rw [ht]
    · intro px py hx0 hxw hy0 hyh
      simp only
      obtain ⟨p1, p2⟩ := hall px py hx0 hxw hy0 hyh
      obtain ⟨r1, r2⟩ := e3 px py hx0 (by rw [hshape.1]; exact hxw) hy0
        (by rw [hshape.2.1]; exact hyh)
      have hsucc : (i + 1).toNat = i.toNat + 1 := by omega
      rw [hsucc]
      by_cases hin : x ≤ px ∧ px < x + 4 ∧ y ≤ py ∧ py < y + 4
      · refine ⟨fun _ => r1 hin, fun hno => absurd ?_ hno⟩
        exact ⟨i.toNat, q, x, y, by omega, hq, hx, hy, hin.1, hin.2.1, hin.2.2.1, hin.2.2.2⟩
      · rw [r2 hin]
        refine ⟨fun hc => p1 ?_, fun hno => p2 (fun hc => hno ?_)⟩
        · obtain ⟨j, a, ax, ay, hj, hjq, hax, hay, c1, c2, c3, c4⟩ := hc
          by_cases hji : j = i.toNat
          · subst hji
            rw [hq] at hjq
            obtain rfl := Option.some.inj hjq
            rw [hx] at hax
            rw [hy] at hay
            obtain rfl := Option.some.inj hax
            obtain rfl := Option.some.inj hay
            exact absurd ⟨c1, c2, c3, c4⟩ hin
          · exact ⟨j, a, ax, ay, by omega, hjq, hax, hay, c1, c2, c3, c4⟩
        · obtain ⟨j, a, ax, ay, hj, hjq, hax, hay, c1, c2, c3, c4⟩ := hc
          exact ⟨j, a, ax, ay, by omega, hjq, hax, hay, c1, c2, c3, c4⟩

/-! ## The program's own scene -/

/-- For the lattice of `setup`, the camera `(0, 0, -5)` and `fov_factor = 640`:
`setup` and `update` complete, every depth lies in `[4, 6]`, and every projected
coordinate is finite with absolute value at most 160. -/
theorem scene_points (fuel : Nat) (hfuel : 10 ≤ fuel) (memory : List Color) (s : App)
    (h1 : s.cube_points.length = N_POINTS) (h2 : s.projected_points.length = N_POINTS)
    (hcam : s.camera_position = ⟨0, 0, -5⟩) (hfov : s.fov_factor = 640) :
    ∃ s1 s2, setup fuel memory s = some (s1, 729) ∧ update s1 = some s2 ∧
      s1.display = { s.display with color_buffer := memory } ∧
      s2 = { s1 with projected_points := s2.projected_points } ∧
      ∀ i : Nat, i < 729 →
        ∃ (p : vec3_t) (qx qy : ℚ), s1.cube_points[i]? = some p ∧
          4 ≤ p.z - s1.camera_position.z ∧ p.z - s1.camera_position.z ≤ 6 ∧
          s2.projected_points[i]? = some ⟨some qx, some qy⟩ ∧
          |qx| ≤ 160 ∧ |qy| ≤ 160 := by
  obtain ⟨⟨s1, c⟩, e1, hc, hl, hall, hframe⟩ := setup_spec fuel hfuel memory s h1
  simp only at hc hl hall hframe
  subst hc
  have hcam1 : s1.camera_position = ⟨0, 0, -5⟩ := by rw [hframe]; exact hcam
  have hfov1 : s1.fov_factor = 640 := by rw [hframe]; exact hfov
  have hpl : s1.projected_points.length = N_POINTS := by rw [hframe]; exact h2
  have hdisp : s1.display = { s.display with color_buffer := memory } := by rw [hframe]
  refine ⟨s1, _, e1, update_eq s1 hl hpl, hdisp, rfl, ?_⟩
  intro i hi
  have hx := axis_value_bounds (show i / 81 < 9 by omega)
  have hy := axis_value_bounds (show i / 9 % 9 < 9 by omega)
  have hz := axis_value_bounds (show i % 9 < 9 by omega)
  have hd4 : 4 ≤ (lattice_point i).z - s1.camera_position.z := by
    rw [hcam1]; simp only [lattice_point]; linarith [hz.1]
  have hd6 : (lattice_point i).z - s1.camera_position.z ≤ 6 := by
    rw [hcam1]; simp only [lattice_point]; linarith [hz.2]
  have hne : (lattice_point i).z - s1.camera_position.z ≠ 0 := by
    intro h0; rw [h0] at hd4; norm_num at hd4
  refine ⟨lattice_point i,
    s1.fov_factor * ((lattice_point i).x / ((lattice_point i).z - s1.camera_position.z)),
    s1.fov_factor * ((lattice_point i).y / ((lattice_point i).z - s1.camera_position.z)),
    hall i hi, hd4, hd6, ?_, ?_, ?_⟩
  · simp only [List.getElem?_map, hall i hi, Option.map_some', projected_of]
    rw [project_of_nonzero _ _ hne]
  · rw [hfov1]
    exact scaled_quotient_bound hx hd4
  · rw [hfov1]
    exact scaled_quotient_bound hy hd4

theorem drawable_of_bounded {d : Display} (hw : 0 ≤ d.window_width ∧ d.window_width ≤ INT_MAX)
    (hh : 0 ≤ d.window_height ∧ d.window_height ≤ INT_MAX) {qx qy : ℚ} (hx : |qx| ≤ 160)
    (hy : |qy| ≤ 160) : Drawable d ⟨some qx, some qy⟩ := by
  have key : ∀ (e : Int) (q : ℚ), 0 ≤ e → e ≤ INT_MAX → |q| ≤ 160 →
      ∃ t : Int, screen_position (some q) e = some t ∧ t + 4 ≤ INT_MAX := by
    intro e q he0 hemax hq
    have hdiv : Int.tdiv e 2 = e / 2 := Int.tdiv_eq_ediv he0 (by decide)
    unfold INT_MAX at hemax
    have hlo : (0 : Int) ≤ e / 2 := by omega
    have hhi : e / 2 ≤ 1073741823 := by omega
    have hloq : (0 : ℚ) ≤ ((e / 2 : Int) : ℚ) := by exact_mod_cast hlo
    have hhiq : ((e / 2 : Int) : ℚ) ≤ 1073741823 := by exact_mod_cast hhi
    obtain ⟨q1, q2⟩ := abs_le.1 hq
    obtain ⟨half, h1, herr1⟩ := round_to_float_near (q := ((e / 2 : Int) : ℚ))
      (by rw [abs_of_nonneg hloq]; linarith)
    obtain ⟨a1, a2⟩ := abs_le.1 herr1
    obtain ⟨sum, h2, herr2⟩ := round_to_float_near (q := q + half)
      (by rw [abs_le]; constructor <;> linarith)
    obtain ⟨b1, b2⟩ := abs_le.1 herr2
    obtain ⟨t1, t2⟩ := trunc_bounds (q := sum) (a := -418) (b := e / 2 + 418) (by decide)
      (by omega) (by push_cast; linarith) (by push_cast; linarith)
    refine ⟨trunc sum, screen_position_eval hdiv h1 h2 rfl ?_, ?_⟩
    · unfold INT_MIN INT_MAX
      omega
    · unfold INT_MAX
      omega
  obtain ⟨x, a1, a2⟩ := key d.window_width qx hw.1 hw.2 hx
  obtain ⟨y, a3, a4⟩ := key d.window_height qy hh.1 hh.2 hy
  exact ⟨x, y, a1, a3, a2, a4⟩

/-- One frame of the program's own scene: with a colour buffer that matches the
window, `setup`, `update` and `render` all complete, one frame is handed to the
presenter, and the buffer is left cleared to `0xFF000000`. -/
theorem scene_frame_completes (fuel : Nat) (hfuel : 10 ≤ fuel) (memory : List Color) (s : App)
    (h1 : s.cube_points.length = N_POINTS) (h2 : s.projected_points.length = N_POINTS)
    (hcam : s.camera_position = ⟨0, 0, -5⟩) (hfov : s.fov_factor = 640)
    (hwf : ({ s.display with color_buffer := memory } : Display).WellFormed)
    (hw : s.display.window_width ≤ INT_MAX) (hh : s.display.window_height ≤ INT_MAX) :
    ∃ s1 s2 s3, setup fuel memory s = some (s1, 729) ∧ update s1 = some s2 ∧
      render s2 = some s3 ∧ s3.frames.length = s.frames.length + 1 ∧
      ∀ c ∈ s3.display.color_buffer, c = 0xFF000000 := by
  obtain ⟨s1, s2, e1, e2, hdisp, hs2, hall⟩ := scene_points fuel hfuel memory s h1 h2 hcam hfov
  have hd2 : s2.display = { s.display with color_buffer := memory } := by
    rw [hs2]; exact hdisp
  have hwf2 : s2.display.WellFormed := by rw [hd2]; exact hwf
  have hfr : s2.frames = s.frames := by
    obtain ⟨st, e1', _, _, _, hframe⟩ := setup_spec fuel hfuel memory s h1
    rw [e1] at e1'
    have hst : st = (s1, 729) := (Option.some.inj e1').symm
    subst hst
    simp only at hframe
    rw [hs2, hframe]
  obtain ⟨s', r1, r2, r3, _⟩ := render_points_spec s2 hwf2 (by
    intro j hj
    obtain ⟨_, qx, qy, _, _, _, hq, bx, by'⟩ := hall j hj
    refine ⟨⟨some qx, some qy⟩, hq, drawable_of_bounded ?_ ?_ bx by'⟩
    · rw [hd2]; exact ⟨hwf.1, hw⟩
    · rw [hd2]; exact ⟨hwf.2.1, hh⟩)
  obtain ⟨d', c1, c2, c3⟩ := clear_all s'.display 0xFF000000 (wellFormed_of_sameShape hwf2 r3)
  have hfr' : s'.frames = s2.frames := by rw [r2]
  refine ⟨s1, s2, { s' with frames := s'.display.color_buffer :: s'.frames, display := d' },
    e1, e2, ?_, ?_, ?_⟩
  · unfold render
    rw [r1]
    simp only [Option.some_bind, c1, Option.map_some']
  · simp [hfr', hfr]
  · intro c hc
    simp only at hc
    obtain ⟨i, hi, rfl⟩ := List.getElem_of_mem hc
    have := c3 i hi
    rw [List.getElem?_eq_getElem hi] at this
    exact Option.some.inj this

/-! ## process_input and the loop of main -/

/-- With a pending event, `process_input` stops the driver exactly on a quit
event and on a key-down of the escape key. -/
theorem process_input_pending (uninit e : SDL_Event) (s : App) (hrun : s.is_running = true) :
    (process_input uninit (some e) s).is_running = false ↔
      (e.type = SDL_QUIT ∨ (e.type = SDL_KEYDOWN ∧ e.sym = SDLK_ESCAPE)) := by
  unfold process_input SDL_PollEvent
  simp only
  by_cases h1 : e.type = SDL_QUIT
  · simp [h1]
  · by_cases h2 : e.type = SDL_KEYDOWN
    · by_cases h3 : e.sym = SDLK_ESCAPE
      · simp [h2, h3]
      · have hne : SDL_KEYDOWN ≠ SDL_QUIT := by decide
        simp [h2, h3, hrun, hne]
    · simp [h1, h2, hrun]

/-- No call of `process_input` sets `is_running`, and nothing else changes. -/
theorem process_input_keeps (uninit : SDL_Event) (pending : Option SDL_Event) (s : App) :
    process_input uninit pending s = s ∨
      process_input uninit pending s = { s with is_running := false } := by
  unfold process_input
  simp only
  split
  · exact Or.inr rfl
  · split
    · split
      · exact Or.inr rfl
      · exact Or.inl rfl
    · exact Or.inl rfl

/-- The loop of `main` does not run its body once `is_running` is false at the
loop test. -/
theorem main_loop_stopped (inputs : List (SDL_Event × Option SDL_Event)) (s : App)
    (h : s.is_running = false) : main_loop inputs s = some s := by
  cases inputs with
  | nil => rfl
  | cons input rest => simp [main_loop, h]

/-! ## Claims on display.c -/

/-- C1: `draw_pixel` on a display whose buffer has `window_width * window_height`
elements, that number being an `int`. When `0 ≤ x < window_width` and
`0 ≤ y < window_height` the resulting buffer holds `color` at index
`window_width * y + x` and is unchanged at every other index (and the
dimensions and the length are kept); otherwise, negative `x` or `y` included,
the display after the call is the display before the call. -/
theorem draw_pixel_spec (d : Display) (x y : Int) (color : Color) (hwf : d.WellFormed) :
    ((0 ≤ x ∧ x < d.window_width ∧ 0 ≤ y ∧ y < d.window_height) →
      ∃ d', draw_pixel x y color d = some d' ∧
        d'.window_width = d.window_width ∧ d'.window_height = d.window_height ∧
        d'.color_buffer.length = d.color_buffer.length ∧
        d'.color_buffer[(d.window_width * y + x).toNat]? = some color ∧
        ∀ i : Nat, i ≠ (d.window_width * y + x).toNat →
          d'.color_buffer[i]? = d.color_buffer[i]?) ∧
    (¬ (0 ≤ x ∧ x < d.window_width ∧ 0 ≤ y ∧ y < d.window_height) →
      draw_pixel x y color d = some d) := by
  refine ⟨?_, fun h => draw_pixel_off color h⟩
  rintro ⟨hx0, hxw, hy0, hyh⟩
  refine ⟨_, draw_pixel_on hwf color hx0 hxw hy0 hyh, rfl, rfl, by simp, ?_, ?_⟩
  · obtain ⟨h1, h2, h3⟩ := index_bounds hx0 hxw hy0 hyh
    have hlen := hwf.2.2.2
    have : (d.window_width * y + x).toNat < d.color_buffer.length := by omega
    simp [List.getElem?_set, this]
  · intro i hi
    simp [List.getElem?_set, Ne.symm hi]

/-- Witness of C1 on a 2 × 2 display: an on-screen store at `(1, 1)` and an
off-screen call at `(-1, 5)`. -/
theorem draw_pixel_spec_witness :
    (⟨2, 2, [0, 0, 0, 0], []⟩ : Display).WellFormed ∧
    draw_pixel 1 1 7 ⟨2, 2, [0, 0, 0, 0], []⟩ = some ⟨2, 2, [0, 0, 0, 7], [3]⟩ ∧
    draw_pixel (-1) 5 7 ⟨2, 2, [0, 0, 0, 0], []⟩ = some ⟨2, 2, [0, 0, 0, 0], []⟩ := by
  have hwf : (⟨2, 2, [0, 0, 0, 0], []⟩ : Display).WellFormed := by
    unfold Display.WellFormed; decide
  refine ⟨hwf, by decide, ?_⟩
  exact (draw_pixel_spec ⟨2, 2, [0, 0, 0, 0], []⟩ (-1) 5 7 hwf).2 (by decide)

/-- C2: `draw_rectangle` on a display whose buffer has
`window_width * window_height` elements, that number being an `int`, when
`x + width` and `y + height` do not overflow `int`. The call completes and keeps the dimensions
and the buffer length; every on-screen pixel `(px, py)` holds `color` if
`x ≤ px < x + width` and `y ≤ py < y + height`, and its previous value
otherwise. Hence, when no on-screen pixel lies in the rectangle (as when it is
fully off-screen, or `width ≤ 0`, or `height ≤ 0`), the buffer is unchanged. -/
theorem draw_rectangle_spec (d : Display) (x y width height : Int) (color : Color)
    (hwf : d.WellFormed)
    (hx : INT_MIN ≤ x + width ∧ x + width ≤ INT_MAX)
    (hy : INT_MIN ≤ y + height ∧ y + height ≤ INT_MAX) :
    ∃ d', draw_rectangle x y width height color d = some d' ∧
      d'.window_width = d.window_width ∧ d'.window_height = d.window_height ∧
      d'.color_buffer.length = d.color_buffer.length ∧
      (∀ px py : Int, 0 ≤ px → px < d.window_width → 0 ≤ py → py < d.window_height →
        ((x ≤ px ∧ px < x + width ∧ y ≤ py ∧ py < y + height) →
          d'.pixel px py = some color) ∧
        (¬ (x ≤ px ∧ px < x + width ∧ y ≤ py ∧ py < y + height) →
          d'.pixel px py = d.pixel px py)) ∧
      ((∀ px py : Int, 0 ≤ px → px < d.window_width → 0 ≤ py → py < d.window_height →
          ¬ (x ≤ px ∧ px < x + width ∧ y ≤ py ∧ py < y + height)) →
        d'.color_buffer = d.color_buffer) ∧
      (width ≤ 0 ∨ height ≤ 0 → d'.color_buffer = d.color_buffer) := by
  unfold draw_rectangle
  rw [wrap_int_of_range hx.1 hx.2, wrap_int_of_range hy.1 hy.2]
  obtain ⟨d', h1, h2, h3⟩ := rectangle_loops hwf x y (x + width) (y + height) color
  have hoff : (∀ px py : Int, 0 ≤ px → px < d.window_width → 0 ≤ py → py < d.window_height →
      ¬ (x ≤ px ∧ px < x + width ∧ y ≤ py ∧ py < y + height)) →
      d'.color_buffer = d.color_buffer := fun hno =>
    buffer_ext hwf h2 (fun px py a b c e => (h3 px py a b c e).2 (hno px py a b c e))
  refine ⟨d', h1, h2.1, h2.2.1, h2.2.2, h3, hoff, ?_⟩
  intro hwh
  apply hoff
  intro px py _ _ _ _ hin
  omega

/-- Witness of C2: a 2 × 2 rectangle at `(1, 1)` on a 2 × 2 display is clipped
to the single pixel `(1, 1)`. -/
theorem draw_rectangle_spec_witness :
    (⟨2, 2, [0, 0, 0, 0], []⟩ : Display).WellFormed ∧
    (INT_MIN ≤ (1 : Int) + 2 ∧ (1 : Int) + 2 ≤ INT_MAX) ∧
    ∃ d', draw_rectangle 1 1 2 2 9 ⟨2, 2, [0, 0, 0, 0], []⟩ = some d' ∧
      d'.pixel 1 1 = some 9 ∧ d'.pixel 0 1 = some 0 := by
  have hwf : (⟨2, 2, [0, 0, 0, 0], []⟩ : Display).WellFormed := by
    unfold Display.WellFormed; decide
  obtain ⟨d', h1, _, _, _, h2, _⟩ :=
    draw_rectangle_spec ⟨2, 2, [0, 0, 0, 0], []⟩ 1 1 2 2 9 hwf (by decide) (by decide)
  refine ⟨hwf, by decide, d', h1, ?_, ?_⟩
  · exact (h2 1 1 (by decide) (by decide) (by decide) (by decide)).1 (by decide)
  · exact (h2 0 1 (by decide) (by decide) (by decide) (by decide)).2 (by decide)

/-- C3: for dimensions that are not negative and a buffer of
`window_width * window_height` elements, that number being an `int`,
`clear_color_buffer` completes, keeps the dimensions and the buffer length, and
afterwards every element of the buffer, hence every on-screen position, equals
`color`. -/
theorem clear_color_buffer_spec (d : Display) (color : Color) (hwf : d.WellFormed) :
    ∃ d', clear_color_buffer color d = some d' ∧
      d'.window_width = d.window_width ∧ d'.window_height = d.window_height ∧
      (d'.color_buffer.length : Int) = d.window_width * d.window_height ∧
      (∀ i : Nat, i < d'.color_buffer.length → d'.color_buffer[i]? = some color) ∧
      (∀ c ∈ d'.color_buffer, c = color) ∧
      (∀ x y : Int, 0 ≤ x → x < d.window_width → 0 ≤ y → y < d.window_height →
        d'.pixel x y = some color) := by
  obtain ⟨d', h1, h2, h3⟩ := clear_all d color hwf
  have hlen : (d'.color_buffer.length : Int) = d.window_width * d.window_height := by
    rw [h2.2.2]; exact hwf.2.2.2
  refine ⟨d', h1, h2.1, h2.2.1, hlen, h3, ?_, ?_⟩
  · intro c hc
    obtain ⟨i, hi, rfl⟩ := List.getElem_of_mem hc
    have := h3 i hi
    rw [List.getElem?_eq_getElem hi] at this
    exact Option.some.inj this
  · intro x y hx0 hxw hy0 hyh
    obtain ⟨b1, b2, b3⟩ := index_bounds hx0 hxw hy0 hyh
    unfold Display.pixel
    rw [h2.1]
    exact h3 _ (by omega)

/-- Witness of C3 on a 2 × 2 display. -/
theorem clear_color_buffer_spec_witness :
    (⟨2, 2, [1, 2, 3, 4], []⟩ : Display).WellFormed ∧
    ∃ d', clear_color_buffer 5 ⟨2, 2, [1, 2, 3, 4], []⟩ = some d' ∧
      ∀ c ∈ d'.color_buffer, c = 5 := by
  have hwf : (⟨2, 2, [1, 2, 3, 4], []⟩ : Display).WellFormed := by
    unfold Display.WellFormed; decide
  obtain ⟨d', h1, _, _, _, _, h2, _⟩ := clear_color_buffer_spec ⟨2, 2, [1, 2, 3, 4], []⟩ 5 hwf
  exact ⟨hwf, d', h1, h2⟩

/-- C9: for dimensions that are not negative and a buffer of
`window_width * window_height` elements, that number being an `int`, each of
`draw_pixel`, `draw_rectangle`, `draw_grid` and `clear_color_buffer` completes
for all arguments, keeps the dimensions and the buffer length, and stores only
at indices `window_width * row + column` with `0 ≤ column < window_width` and
`0 ≤ row < window_height`; every such index lies in
`[0, window_width * window_height)` and is an index of the buffer. -/
theorem pixel_buffer_invariant (d : Display) (hwf : d.WellFormed) :
    (∀ (x y : Int) (color : Color), ∃ d', draw_pixel x y color d = some d' ∧ d.SafeStep d') ∧
    (∀ (x y width height : Int) (color : Color),
      ∃ d', draw_rectangle x y width height color d = some d' ∧ d.SafeStep d') ∧
    (∃ d', draw_grid d = some d' ∧ d.SafeStep d') ∧
    (∀ color : Color, ∃ d', clear_color_buffer color d = some d' ∧ d.SafeStep d') ∧
    (∀ idx : Int, d.OnScreenIndex idx →
      0 ≤ idx ∧ idx < d.window_width * d.window_height ∧ idx < d.color_buffer.length) := by
  refine ⟨fun x y color => safe_draw_pixel hwf (safeStep_refl d) x y color,
    fun x y width height color => safe_draw_rectangle hwf x y width height color,
    safe_draw_grid hwf, fun color => safe_clear hwf color, ?_⟩
  rintro idx ⟨row, col, hc0, hcw, hr0, hrh, rfl⟩
  obtain ⟨b1, b2, b3⟩ := index_bounds hc0 hcw hr0 hrh
  rw [hwf.2.2.2]
  exact ⟨by omega, b3, b3⟩

/-- Witness of C9 on a 2 × 2 display. -/
theorem pixel_buffer_invariant_witness :
    (⟨2, 2, [0, 0, 0, 0], []⟩ : Display).WellFormed ∧
    (∃ d', draw_grid ⟨2, 2, [0, 0, 0, 0], []⟩ = some d' ∧
      (⟨2, 2, [0, 0, 0, 0], []⟩ : Display).SafeStep d') ∧
    (∃ d', draw_rectangle (-3) 1 2147483647 5 9 ⟨2, 2, [0, 0, 0, 0], []⟩ = some d' ∧
      (⟨2, 2, [0, 0, 0, 0], []⟩ : Display).SafeStep d') := by
  have hwf : (⟨2, 2, [0, 0, 0, 0], []⟩ : Display).WellFormed := by
    unfold Display.WellFormed; decide
  have h := pixel_buffer_invariant ⟨2, 2, [0, 0, 0, 0], []⟩ hwf
  exact ⟨hwf, h.2.2.1, h.2.1 (-3) 1 2147483647 5 9⟩

/-! ## Claims on the point cloud and the projection -/

/-- C4: with fuel for ten evaluations of each loop test, `setup` completes with
`point_count = 729`; no store leaves the 729 entries of `cube_points`; for all
`i, j, k` in `0..8` the entry at index `81 * i + 9 * j + k` is
`(-1 + i/4, -1 + j/4, -1 + k/4)`; and every coordinate of every entry is one of
the nine values `-1, -0.75, ..., 1`. -/
theorem setup_point_cloud (fuel : Nat) (hfuel : 10 ≤ fuel) (memory : List Color) (s : App)
    (hlen : s.cube_points.length = N_POINTS) :
    ∃ s', setup fuel memory s = some (s', 729) ∧
      s'.cube_points.length = 729 ∧
      (∀ i j k : Nat, i < 9 → j < 9 → k < 9 →
        s'.cube_points[81 * i + 9 * j + k]? =
          some ⟨-1 + (i : ℚ) / 4, -1 + (j : ℚ) / 4, -1 + (k : ℚ) / 4⟩) ∧
      (∀ p ∈ s'.cube_points,
        p.x ∈ ([-1, -3 / 4, -1 / 2, -1 / 4, 0, 1 / 4, 1 / 2, 3 / 4, 1] : List ℚ) ∧
        p.y ∈ ([-1, -3 / 4, -1 / 2, -1 / 4, 0, 1 / 4, 1 / 2, 3 / 4, 1] : List ℚ) ∧
        p.z ∈ ([-1, -3 / 4, -1 / 2, -1 / 4, 0, 1 / 4, 1 / 2, 3 / 4, 1] : List ℚ)) := by
  obtain ⟨⟨s', c⟩, h1, hc, hl, hall, _⟩ := setup_spec fuel hfuel memory s hlen
  simp only at hc hl hall
  subst hc
  refine ⟨s', h1, hl, ?_, ?_⟩
  · intro i j k hi hj hk
    rw [hall _ (by omega), lattice_point_index hj hk]
    rfl
  · intro p hp
    obtain ⟨idx, hidx, rfl⟩ := List.getElem_of_mem hp
    have hN : N_POINTS = 729 := rfl
    have h := hall idx (by omega)
    rw [List.getElem?_eq_getElem hidx] at h
    rw [Option.some.inj h]
    exact ⟨axis_value_mem (by omega), axis_value_mem (by omega), axis_value_mem (by omega)⟩

/-- Witness of C4: `setup` run with fuel 10 on the initial globals and an empty
buffer. -/
theorem setup_point_cloud_witness :
    (10 ≤ 10) ∧ initial_app.cube_points.length = N_POINTS ∧
    ∃ s', setup 10 [] initial_app = some (s', 729) ∧
      s'.cube_points[81 * 8 + 9 * 0 + 2]? = some ⟨1, -1, -1 / 2⟩ := by
  refine ⟨le_refl _, by simp [initial_app], ?_⟩
  obtain ⟨s', h1, _, h2, _⟩ :=
    setup_point_cloud 10 (le_refl _) [] initial_app (by simp [initial_app])
  refine ⟨s', h1, ?_⟩
  rw [h2 8 0 2 (by decide) (by decide) (by decide)]
  norm_num

/-- C5: `update` on arrays of `N_POINTS` entries completes; it leaves
`cube_points`, the camera and every other global unchanged; for every index
`i < 729` whose point `p` has a nonzero depth `d = p.z - camera_position.z` it
stores `(fov_factor * (p.x / d), fov_factor * (p.y / d))` at index `i`; and the
new `projected_points` does not depend on the old one. The static initialisers
give `fov_factor = 640` and `camera_position = (0, 0, -5)`. -/
theorem update_projects (s : App) (h1 : s.cube_points.length = N_POINTS)
    (h2 : s.projected_points.length = N_POINTS) :
    ∃ s', update s = some s' ∧
      s' = { s with projected_points := s'.projected_points } ∧
      s'.cube_points = s.cube_points ∧ s'.camera_position = s.camera_position ∧
      s'.projected_points.length = 729 ∧
      (∀ (i : Nat) (p : vec3_t), i < 729 → s.cube_points[i]? = some p →
        p.z - s.camera_position.z ≠ 0 →
        s'.projected_points[i]? =
          some ⟨some (s.fov_factor * (p.x / (p.z - s.camera_position.z))),
                some (s.fov_factor * (p.y / (p.z - s.camera_position.z)))⟩) ∧
      (∀ old : List vec2_t, old.length = N_POINTS →
        ∃ t', update { s with projected_points := old } = some t' ∧
          t'.projected_points = s'.projected_points) ∧
      initial_app.fov_factor = 640 ∧ initial_app.camera_position = ⟨0, 0, -5⟩ := by
  refine ⟨_, update_eq s h1 h2, rfl, rfl, rfl, by simp [h1, N_POINTS], ?_, ?_, rfl, rfl⟩
  · intro i p _ hp hd
    simp only [List.getElem?_map, hp, Option.map_some', projected_of]
    rw [project_of_nonzero _ _ hd]
  · intro old hold
    exact ⟨_, update_eq { s with projected_points := old } h1 hold, rfl⟩

/-- Witness of C5: `update` on the initial globals with the point `(1, 0, 1)`
in every entry of `cube_points`. -/
theorem update_projects_witness :
    ({ initial_app with cube_points := List.replicate N_POINTS ⟨1, 0, 1⟩ } : App).cube_points.length
      = N_POINTS ∧
    ({ initial_app with cube_points := List.replicate N_POINTS ⟨1, 0, 1⟩ } :
      App).projected_points.length = N_POINTS ∧
    ∃ s', update { initial_app with cube_points := List.replicate N_POINTS ⟨1, 0, 1⟩ } = some s' ∧
      s'.projected_points[0]? = some ⟨some (320 / 3), some 0⟩ := by
  refine ⟨by simp, by simp [initial_app], ?_⟩
  obtain ⟨s', e1, _, _, _, _, e2, _⟩ :=
    update_projects { initial_app with cube_points := List.replicate N_POINTS ⟨1, 0, 1⟩ }
      (by simp) (by simp [initial_app])
  refine ⟨s', e1, ?_⟩
  have hp : (List.replicate N_POINTS (⟨1, 0, 1⟩ : vec3_t))[0]? = some ⟨1, 0, 1⟩ := by
    rw [List.getElem?_replicate, if_pos (by decide)]
  rw [e2 0 ⟨1, 0, 1⟩ (by decide) hp (by simp [initial_app]; norm_num)]
  simp [initial_app]
  norm_num

/-- C6, counterexample: the point `(1, 1, -5)` has depth zero for the camera
`(0, 0, -5)`; `project` divides by that depth, both projected coordinates are
non-finite, `update` stores them, and the loop of `render` then converts a
non-finite value to `int`, which fails. -/
theorem project_guard_counterexample :
    (⟨1, 1, -5⟩ : vec3_t).z - initial_app.camera_position.z = 0 ∧
    projected_of initial_app ⟨1, 1, -5⟩ = ⟨none, none⟩ ∧
    ∃ s', update { initial_app with cube_points := List.replicate N_POINTS ⟨1, 1, -5⟩ } = some s' ∧
      s'.projected_points[0]? = some ⟨none, none⟩ ∧ render_points s' = none := by
  have hd : (⟨1, 1, -5⟩ : vec3_t).z - initial_app.camera_position.z = 0 := by
    simp [initial_app]
  have hproj : projected_of initial_app ⟨1, 1, -5⟩ = ⟨none, none⟩ :=
    project_of_zero _ _ hd
  refine ⟨hd, hproj, _, update_eq _ (by simp) (by simp [initial_app]), ?_, ?_⟩
  · simp only [List.map_replicate, List.getElem?_replicate]
    rw [if_pos (by decide)]
    exact congrArg some hproj
  · apply render_points_nonfinite
    show (List.map _ (List.replicate N_POINTS (⟨1, 1, -5⟩ : vec3_t)))[0]? = some ⟨none, none⟩
    rw [List.map_replicate, List.getElem?_replicate, if_pos (by decide)]
    exact congrArg some hproj

/-- C6, amended: `project` does not guard the division. For every point of
`cube_points` whose depth `p.z - camera_position.z` is zero, both projected
coordinates are non-finite, and `update` completes and stores them at the index
of the point. -/
theorem project_zero_depth (s : App) (h1 : s.cube_points.length = N_POINTS)
    (h2 : s.projected_points.length = N_POINTS) (i : Nat) (p : vec3_t)
    (hp : s.cube_points[i]? = some p) (hd : p.z - s.camera_position.z = 0) :
    projected_of s p = ⟨none, none⟩ ∧
    ∃ s', update s = some s' ∧ s'.projected_points[i]? = some ⟨none, none⟩ := by
  have hproj : projected_of s p = ⟨none, none⟩ := project_of_zero _ _ hd
  refine ⟨hproj, _, update_eq s h1 h2, ?_⟩
  simp only [List.getElem?_map, hp, Option.map_some', hproj]

/-- Witness of the amended C6: a camera at the origin and the point `(0, 0, 0)`
in every entry of `cube_points`. -/
theorem project_zero_depth_witness :
    ({ initial_app with camera_position := ⟨0, 0, 0⟩ } : App).cube_points[728]?
      = some ⟨0, 0, 0⟩ ∧
    (⟨0, 0, 0⟩ : vec3_t).z -
      ({ initial_app with camera_position := ⟨0, 0, 0⟩ } : App).camera_position.z = 0 ∧
    ∃ s', update { initial_app with camera_position := ⟨0, 0, 0⟩ } = some s' ∧
      s'.projected_points[728]? = some ⟨none, none⟩ := by
  have hp : ({ initial_app with camera_position := ⟨0, 0, 0⟩ } : App).cube_points[728]?
      = some ⟨0, 0, 0⟩ := by
    show (List.replicate N_POINTS (⟨0, 0, 0⟩ : vec3_t))[728]? = some ⟨0, 0, 0⟩
    rw [List.getElem?_replicate, if_pos (by decide)]
  have hd : (⟨0, 0, 0⟩ : vec3_t).z -
      ({ initial_app with camera_position := ⟨0, 0, 0⟩ } : App).camera_position.z = 0 := by
    simp
  exact ⟨hp, hd, (project_zero_depth { initial_app with camera_position := ⟨0, 0, 0⟩ }
    (by simp [initial_app]) (by simp [initial_app]) 728 ⟨0, 0, 0⟩ hp hd).2⟩

/-- C10: for the program's own scene, the lattice that `setup` generates and
the camera `(0, 0, -5)` with `fov_factor = 640`, `setup` and `update` complete,
and for each of the 729 points the depth `p.z - camera_position.z` lies in
`[4, 6]`, so it is not zero, and both projected coordinates are finite with
absolute value at most `160`. -/
theorem scene_depth_nonzero (fuel : Nat) (hfuel : 10 ≤ fuel) (memory : List Color) (s : App)
    (h1 : s.cube_points.length = N_POINTS) (h2 : s.projected_points.length = N_POINTS)
    (hcam : s.camera_position = ⟨0, 0, -5⟩) (hfov : s.fov_factor = 640) :
    ∃ s1 s2, setup fuel memory s = some (s1, 729) ∧ update s1 = some s2 ∧
      ∀ i : Nat, i < 729 →
        ∃ (p : vec3_t) (qx qy : ℚ), s1.cube_points[i]? = some p ∧
          4 ≤ p.z - s1.camera_position.z ∧ p.z - s1.camera_position.z ≤ 6 ∧
          p.z - s1.camera_position.z ≠ 0 ∧
          s2.projected_points[i]? = some ⟨some qx, some qy⟩ ∧
          |qx| ≤ 160 ∧ |qy| ≤ 160 := by
  obtain ⟨s1, s2, e1, e2, _, _, hall⟩ := scene_points fuel hfuel memory s h1 h2 hcam hfov
  refine ⟨s1, s2, e1, e2, ?_⟩
  intro i hi
  obtain ⟨p, qx, qy, a1, a2, a3, a4, a5, a6⟩ := hall i hi
  refine ⟨p, qx, qy, a1, a2, a3, ?_, a4, a5, a6⟩
  intro h0
  rw [h0] at a2
  norm_num at a2

/-- Witness of C10: the initial globals, fuel 10 and an empty buffer. -/
theorem scene_depth_nonzero_witness :
    initial_app.camera_position = ⟨0, 0, -5⟩ ∧ initial_app.fov_factor = 640 ∧
    ∃ s1 s2, setup 10 [] initial_app = some (s1, 729) ∧ update s1 = some s2 ∧
      ∃ (p : vec3_t) (qx qy : ℚ), s1.cube_points[0]? = some p ∧
        p.z - s1.camera_position.z ≠ 0 ∧
        s2.projected_points[0]? = some ⟨some qx, some qy⟩ ∧ |qx| ≤ 160 ∧ |qy| ≤ 160 := by
  obtain ⟨s1, s2, e1, e2, h⟩ := scene_depth_nonzero 10 (le_refl _) [] initial_app
    (by simp [initial_app]) (by simp [initial_app]) rfl rfl
  obtain ⟨p, qx, qy, a1, _, _, a2, a3, a4, a5⟩ := h 0 (by decide)
  exact ⟨rfl, rfl, s1, s2, e1, e2, p, qx, qy, a1, a2, a3, a4, a5⟩

/-! ## Claims on the frame -/

/-- C7: when the display is well formed and every projected point has a
screen position that can be passed to `draw_rectangle`, the loop of `render`
completes and changes only the buffer: every on-screen pixel that lies in the
4 × 4 square of a projected point `q`, with top-left pixel
`(trunc (q.x + window_width / 2), trunc (q.y + window_height / 2))`, holds
`0xFFFFFF00`, and every other on-screen pixel keeps its value; `render` hands
that buffer to the presenter. In the top-left pixel the division is the `int`
division, the sum is the `float` sum of the code (the exact sum rounded to
binary32) and `trunc` is the conversion of that sum to `int`; a quotient of
magnitude at most `2 ^ 24` is converted to `float` unchanged. The scenario of
the spec: at 800 × 600 with the camera `(0, 0, -5)` and `fov_factor = 640`, the
point `(0, 0, 1)` has depth 6, projects to `(0, 0)` and is drawn at
`(400, 300)`; the point `(1, 0, 1)` projects to `x = 640 * (1 / 6)`, its square
has top-left `(506, 300)` and covers columns 506..509 and rows 300..303, and the
`float` value `0x1.aaaaacp+6` that the code stores for it gives column 506 too.
Where rounding matters: for `q.x = -2 ^ -17` at width 800 the `float` sum is 400
and the square starts at column 400, and for `q.x = -2 ^ -30` at width 4 it
starts at column 2. -/
theorem render_draws_squares :
    (∀ s : App, s.display.WellFormed →
      (∀ j : Nat, j < 729 → ∃ q : vec2_t,
        s.projected_points[j]? = some q ∧ Drawable s.display q) →
      ∃ s' s'', render_points s = some s' ∧ render s = some s'' ∧
        s''.frames = s'.display.color_buffer :: s.frames ∧
        s' = { s with display := s'.display } ∧
        s'.display.window_width = s.display.window_width ∧
        s'.display.window_height = s.display.window_height ∧
        s'.display.color_buffer.length = s.display.color_buffer.length ∧
        ∀ px py : Int, 0 ≤ px → px < s.display.window_width → 0 ≤ py →
          py < s.display.window_height →
          (Covered s 729 px py → s'.display.pixel px py = some 0xFFFFFF00) ∧
          (¬ Covered s 729 px py → s'.display.pixel px py = s.display.pixel px py)) ∧
    (∀ (q : ℚ) (extent t : Int), screen_position (some q) extent = some t ↔
      ∃ half sum : ℚ, round_to_float ((Int.tdiv extent 2 : Int) : ℚ) = some half ∧
        round_to_float (q + half) = some sum ∧
        INT_MIN ≤ trunc sum ∧ trunc sum ≤ INT_MAX ∧ t = trunc sum) ∧
    (∀ extent : Int, screen_position none extent = none) ∧
    (∀ n : Int, |n| ≤ 16777216 → round_to_float (n : ℚ) = some (n : ℚ)) ∧
    (∀ q r : ℚ, round_to_float q = some r →
      |r - q| ≤ |q| * 2 ^ (-24 : Int) + 2 ^ (-150 : Int)) ∧
    (⟨0, 0, 1⟩ : vec3_t).z - initial_app.camera_position.z = 6 ∧
    projected_of initial_app ⟨0, 0, 1⟩ = ⟨some 0, some 0⟩ ∧
    screen_position (some 0) 800 = some 400 ∧ screen_position (some 0) 600 = some 300 ∧
    projected_of initial_app ⟨1, 0, 1⟩ = ⟨some (640 * (1 / 6)), some 0⟩ ∧
    screen_position (some (640 * (1 / 6))) 800 = some 506 ∧
    screen_position (some (13981014 / 131072)) 800 = some 506 ∧
    screen_position (some (-1 / 131072)) 800 = some 400 ∧
    screen_position (some (-1 / 1073741824)) 4 = some 2 ∧
    (∀ d : Display, d.WellFormed → d.window_width = 800 → d.window_height = 600 →
      ∃ d', render_point ⟨some (640 * (1 / 6)), some 0⟩ d = some d' ∧
        ∀ px py : Int, 0 ≤ px → px < 800 → 0 ≤ py → py < 600 →
          ((506 ≤ px ∧ px ≤ 509 ∧ 300 ≤ py ∧ py ≤ 303) → d'.pixel px py = some 0xFFFFFF00) ∧
          (¬ (506 ≤ px ∧ px ≤ 509 ∧ 300 ≤ py ∧ py ≤ 303) → d'.pixel px py = d.pixel px py)) := by
  refine ⟨?_, screen_position_some_iff, screen_position_none, round_to_float_int, ?_, ?_, ?_,
    screen_position_center, screen_position_middle, ?_, screen_position_scene,
    screen_position_stored, screen_position_below_zero, screen_position_small, ?_⟩
  · intro s hwf hfin
    obtain ⟨s', e1, e2, e3, e4⟩ := render_points_spec s hwf hfin
    obtain ⟨d', c1, _⟩ := clear_all s'.display 0xFF000000 (wellFormed_of_sameShape hwf e3)
    have hfr : s'.frames = s.frames := by rw [e2]
    refine ⟨s', { s' with frames := s'.display.color_buffer :: s'.frames, display := d' },
      e1, ?_, ?_, e2, e3.1, e3.2.1, e3.2.2, e4⟩
    · unfold render
      rw [e1]
      simp only [Option.some_bind, c1, Option.map_some']
    · simp only [hfr]
  · intro q r h
    unfold round_to_float at h
    split_ifs at h
    rw [← Option.some.inj h]
    exact float_nearest_error q
  · simp [initial_app]
    norm_num
  · simp [projected_of, project, initial_app, float_div, float_mul]
    norm_num
  · simp [projected_of, project, initial_app, float_div, float_mul]
    norm_num
  · intro d hwf hw hh
    have hx : screen_position (some (640 * (1 / 6))) d.window_width = some 506 := by
      rw [hw]; exact screen_position_scene
    have hy : screen_position (some 0) d.window_height = some 300 := by
      rw [hh]; exact screen_position_middle
    rw [render_point_eq d ⟨some (640 * (1 / 6)), some 0⟩ hx hy]
    obtain ⟨d', e1, _, e3⟩ := draw_rectangle_pixels hwf 506 300 4 4 0xFFFFFF00
      (by decide) (by decide)
    refine ⟨d', e1, ?_⟩
    intro px py hx0 hxw hy0 hyh
    obtain ⟨r1, r2⟩ := e3 px py hx0 (by rw [hw]; exact hxw) hy0 (by rw [hh]; exact hyh)
    exact ⟨fun h => r1 (by omega), fun h => r2 (fun hc => h (by omega))⟩

/-- Witness of C7: a 2 × 2 display and 729 projected points `(0, 0)`; every
square has its top-left pixel at `(1, 1)`. -/
theorem render_draws_squares_witness :
    (⟨2, 2, [0, 0, 0, 0], []⟩ : Display).WellFormed ∧
    Drawable ⟨2, 2, [0, 0, 0, 0], []⟩ ⟨some 0, some 0⟩ ∧
    ∃ s' s'',
      render_points { initial_app with display := ⟨2, 2, [0, 0, 0, 0], []⟩ } = some s' ∧
      render { initial_app with display := ⟨2, 2, [0, 0, 0, 0], []⟩ } = some s'' ∧
      s'.display.pixel 1 1 = some 0xFFFFFF00 := by
  have hsp : screen_position (some 0) 2 = some 1 :=
    screen_position_eval (show Int.tdiv 2 2 = 1 by decide) (round_to_float_int 1 (by decide))
      (by rw [zero_add]; exact round_to_float_int 1 (by decide)) (trunc_intCast 1) (by decide)
  have hwf : (⟨2, 2, [0, 0, 0, 0], []⟩ : Display).WellFormed := by
    unfold Display.WellFormed; decide
  have hdraw : Drawable ⟨2, 2, [0, 0, 0, 0], []⟩ ⟨some 0, some 0⟩ :=
    ⟨1, 1, hsp, hsp, by decide, by decide⟩
  have hq : ∀ j : Nat, j < 729 →
      (List.replicate N_POINTS (⟨some 0, some 0⟩ : vec2_t))[j]? = some ⟨some 0, some 0⟩ := by
    intro j hj
    rw [List.getElem?_replicate, if_pos (by rw [show N_POINTS = 729 from rfl]; exact hj)]
  obtain ⟨s', s'', e1, e2, _, _, _, _, _, e3⟩ := render_draws_squares.1
    { initial_app with display := ⟨2, 2, [0, 0, 0, 0], []⟩ } hwf
    (fun j hj => ⟨⟨some 0, some 0⟩, hq j hj, hdraw⟩)
  refine ⟨hwf, hdraw, s', s'', e1, e2,
    (e3 1 1 (by decide) (by decide) (by decide) (by decide)).1 ?_⟩
  exact ⟨0, ⟨some 0, some 0⟩, 1, 1, by decide, hq 0 (by decide), hsp, hsp, by decide, by decide,
    by decide, by decide⟩

/-- C8, evaluation at the failing input: the driver is running, no event is
pending, and the uninitialised `event` holds the type `SDL_QUIT` (or a key-down
of the escape key); since the value returned by `SDL_PollEvent` is not tested,
`process_input` reads that content and stops the driver. With other content in
`event` the driver stays running, so without a pending event the outcome is
decided by the uninitialised variable alone. -/
theorem process_input_no_event :
    ({ initial_app with is_running := true } : App).is_running = true ∧
    (process_input ⟨SDL_QUIT, 0⟩ none { initial_app with is_running := true }).is_running
      = false ∧
    (process_input ⟨SDL_KEYDOWN, SDLK_ESCAPE⟩ none
      { initial_app with is_running := true }).is_running = false ∧
    (process_input ⟨0, 0⟩ none { initial_app with is_running := true }).is_running = true := by
  refine ⟨rfl, ?_, ?_, ?_⟩
  · simp [process_input, SDL_PollEvent]
  · simp [process_input, SDL_PollEvent, SDL_KEYDOWN, SDL_QUIT]
  · simp [process_input, SDL_PollEvent, SDL_KEYDOWN, SDL_QUIT]

end Rasterizer
